import Mathlib

/-!
Verification of CustomCPPContainers: a shallow embedding of `Vector.h`, `SharedPtr.h` and
`UniquePtr.h`, and the properties of `Vector<T>`, `SharedPtr<T>` and `UniquePtr<T, Deleter>`
proved on it.

C++ objects live in explicit stores:

* the storage handed out by `std::allocator<T>` is a list of blocks, a pointer
  is `none` (`nullptr`) or `some a` (start of block `a`), and `p + i` is slot
  `i` of block `p`;
* `size_t` is `Nat` with every arithmetic step that can overflow reduced modulo `2 ^ 64`;
* `int` is `Int`, and signed overflow is undefined behaviour;
* a member function returns `Res.ok`, `Res.throw` (an exception leaves the
  call, the state it leaves behind is recorded) or `Res.ub` (undefined
  behaviour: null or out-of-range access, use after free, double delete, reading a slot in
  which no object was constructed).

Whether `allocate`, `new` or a constructor of `T` throws is decided by the
environment; the state carries the environment's decisions for the calls still
to come (`allocFaults`, `ctorFaults`).
-/

namespace CustomCPP

/-- Exceptions that can leave a member function. -/
inductive Exn where
  | bad_alloc
  | ctor_failure
  | out_of_range (what : String)
  deriving DecidableEq, Repr

/-- Result of running a piece of C++ on a state of type `σ` that returns a `ρ`. -/
inductive Res (σ ρ : Type) where
  | ok (r : ρ) (s : σ)
  | throw (e : Exn) (s : σ)
  | ub
  deriving DecidableEq, Repr

/-- Modulus of `size_t` arithmetic: `SIZE_MAX + 1`. -/
def SIZE_MOD : Nat := 18446744073709551616

/-- Largest value of `int`. -/
def INT_MAX : Int := 2147483647

/-- Smallest value of `int`. -/
def INT_MIN : Int := -2147483648

/-! ## Raw storage (`std::allocator<T>`, `std::construct_at`, `std::destroy_at`) -/

/-- One slot of a block returned by `allocate`. -/
inductive Slot (α : Type) where
  | raw
  | live (v : α)
  deriving DecidableEq, Repr

/-- Free store as seen by `Vector<T>`. -/
structure Heap (α : Type) where
  /-- Block `a` is `blocks[a]`: `none` once deallocated. -/
  blocks : List (Option (List (Slot α)))
  /-- For each coming call of `allocate`: does it throw `std::bad_alloc`? (empty: none does) -/
  allocFaults : List Bool
  /-- For each coming construction of a `T`: does the constructor throw? (empty: none does) -/
  ctorFaults : List Bool
  /-- Log of `std::destroy_at(p + i)` calls as `(p, i)`, most recent first. -/
  destroyed : List (Nat × Nat)
  deriving DecidableEq, Repr

/-- Heap with no block, in which no allocation and no constructor fails. -/
def Heap.empty {α : Type} : Heap α := ⟨[], [], [], []⟩

/-- The block a pointer points to, if it is the start of a block that is still allocated. -/
def Heap.block {α : Type} (h : Heap α) (p : Option Nat) : Option (List (Slot α)) :=
  match p with
  | none => none
  | some a =>
    match h.blocks[a]? with
    | some (some b) => some b
    | _ => none

/-- Read `p[i]`: the object in slot `i` of block `p`, if there is one. -/
def Heap.read {α : Type} (h : Heap α) (p : Option Nat) (i : Nat) : Option α :=
  match h.block p with
  | none => none
  | some b =>
    match b[i]? with
    | some (Slot.live v) => some v
    | _ => none

/-- Model of `_allocator.allocate(n)`: a fresh block of `n` raw slots, or `std::bad_alloc`. -/
def allocate {α : Type} (n : Nat) (h : Heap α) : Res (Heap α) Nat :=
  match h.allocFaults with
  | true :: rest => .throw .bad_alloc { h with allocFaults := rest }
  | _ => .ok h.blocks.length
      { h with blocks := h.blocks ++ [some (List.replicate n Slot.raw)],
               allocFaults := h.allocFaults.tail }

/-- Model of `_allocator.deallocate(p, n)`. A null `p` is passed on to `operator delete`, which
ignores it; any other `p` must be a live block of `n` slots. -/
def deallocate {α : Type} (p : Option Nat) (n : Nat) (h : Heap α) : Res (Heap α) Unit :=
  match p with
  | none => .ok () h
  | some a =>
    match h.block p with
    | none => .ub
    | some b =>
      if b.length = n then .ok () { h with blocks := h.blocks.set a none } else .ub

/-- Model of `std::construct_at(p + i, value)`: slot `i` of block `p` must exist; the constructor
of `T` may throw. -/
def construct_at {α : Type} (p : Option Nat) (i : Nat) (value : α) (h : Heap α) :
    Res (Heap α) Unit :=
  match p, h.block p with
  | some a, some b =>
    if i < b.length then
      match h.ctorFaults with
      | true :: rest => .throw .ctor_failure { h with ctorFaults := rest }
      | _ => .ok () { h with blocks := h.blocks.set a (some (b.set i (Slot.live value))),
                             ctorFaults := h.ctorFaults.tail }
    else .ub
  | _, _ => .ub

/-- Model of `std::destroy_at(p + i)`: slot `i` of block `p` must hold an object. -/
def destroy_at {α : Type} (p : Option Nat) (i : Nat) (h : Heap α) : Res (Heap α) Unit :=
  match p, h.block p with
  | some a, some b =>
    match b[i]? with
    | some (Slot.live _) =>
      .ok () { h with blocks := h.blocks.set a (some (b.set i Slot.raw)),
                      destroyed := (a, i) :: h.destroyed }
    | _ => .ub
  | _, _ => .ub

/-- Model of `for (size_t i = 0; i < n; ++i) body(i);`: `forLoop body k i` runs the `k`
iterations `i, i+1, ..`; the whole loop is `forLoop body n 0`. -/
def forLoop {σ : Type} (body : Nat → σ → Res σ Unit) : Nat → Nat → σ → Res σ Unit
  | 0, _, s => .ok () s
  | k + 1, i, s =>
    match body i s with
    | .ok _ s1 => forLoop body k (i + 1) s1
    | .throw e s1 => .throw e s1
    | .ub => .ub

/-! ## `Vector<T>` (Vector.h) -/

/-- Data members of `Vector<T>`; `_allocator` is stateless. -/
structure Vector where
  _data : Option Nat
  _size : Nat
  _capacity : Nat
  deriving DecidableEq, Repr

namespace Vector

/-- Model of `Vector()`. -/
def new : Vector := ⟨none, 0, 0⟩

/-- Model of `explicit Vector(size_t capacity)`: `_data` stays `nullptr`, the loop constructs at
`_data + i`. -/
def newSized {α : Type} [Inhabited α] (capacity : Nat) (h : Heap α) : Res (Heap α) Vector :=
  match forLoop (fun i h1 => construct_at none i (default : α) h1) capacity 0 h with
  | .ok _ h1 => .ok ⟨none, capacity, capacity⟩ h1
  | .throw e h1 => .throw e h1
  | .ub => .ub

/-- Model of `~Vector()`. -/
def destructor {α : Type} (self : Vector) (h : Heap α) : Res (Heap α) Unit :=
  match forLoop (fun i h1 => destroy_at self._data i h1) self._size 0 h with
  | .ok _ h1 => deallocate self._data self._capacity h1
  | .throw e h1 => .throw e h1
  | .ub => .ub

/-- Model of `Vector(const Vector& other)`: allocates `other._capacity` slots and value-initialises
`other._size` elements (`std::construct_at(_data + i)` has no initialiser argument). -/
def copyCtor {α : Type} [Inhabited α] (other : Vector) (h : Heap α) : Res (Heap α) Vector :=
  match allocate other._capacity h with
  | .ok p h1 =>
    match forLoop (fun i h2 => construct_at (some p) i (default : α) h2) other._size 0 h1 with
    | .ok _ h2 => .ok ⟨some p, other._size, other._capacity⟩ h2
    | .throw e h2 => .throw e h2
    | .ub => .ub
  | .throw e h1 => .throw e h1
  | .ub => .ub

/-- Model of `Vector(Vector&& other) noexcept`: returns the new object and what is left of
`other`. -/
def moveCtor (other : Vector) : Vector × Vector :=
  (⟨other._data, other._size, other._capacity⟩, ⟨none, 0, 0⟩)

/-- Model of `void swap(Vector& other)`: returns the new `*this` and the new `other`. -/
def swap (self other : Vector) : Vector × Vector :=
  (⟨other._data, other._size, other._capacity⟩, ⟨self._data, self._size, self._capacity⟩)

/-- Model of `void reallocate(size_t new_capacity)`. The moved-from objects of the old block are
not destroyed before the block is deallocated. -/
def reallocate {α : Type} (self : Vector) (new_capacity : Nat) (h : Heap α) :
    Res (Vector × Heap α) Unit :=
  match allocate new_capacity h with
  | .ok new_data h1 =>
    match forLoop (fun i h2 =>
        match h2.read self._data i with
        | some x => construct_at (some new_data) i x h2
        | none => .ub) self._size 0 h1 with
    | .ok _ h2 =>
      match deallocate self._data self._capacity h2 with
      | .ok _ h3 => .ok () ({ self with _data := some new_data, _capacity := new_capacity }, h3)
      | .throw e h3 => .throw e (self, h3)
      | .ub => .ub
    | .throw e h2 => .throw e (self, h2)
    | .ub => .ub
  | .throw e h1 => .throw e (self, h1)
  | .ub => .ub

/-- Model of `void push_back(const T& value)` and of `void push_back(T&& value)`: the two
overloads differ only in copying or moving `value` into the new slot. -/
def push_back {α : Type} (self : Vector) (value : α) (h : Heap α) : Res (Vector × Heap α) Unit :=
  match (if self._size = self._capacity then
          reallocate self (if self._capacity = 0 then 1 else (self._capacity * 2) % SIZE_MOD) h
         else .ok () (self, h)) with
  | .ok _ (v1, h1) =>
    match construct_at v1._data v1._size value h1 with
    | .ok _ h2 => .ok () ({ v1 with _size := (v1._size + 1) % SIZE_MOD }, h2)
    | .throw e h2 => .throw e (v1, h2)
    | .ub => .ub
  | .throw e s => .throw e s
  | .ub => .ub

/-- Model of `void pop_back()`. -/
def pop_back {α : Type} (self : Vector) (h : Heap α) : Res (Vector × Heap α) Unit :=
  if self._size = 0 then .throw (.out_of_range "pop_back() on empty Vector") (self, h)
  else
    let v1 : Vector := { self with _size := self._size - 1 }
    match destroy_at v1._data v1._size h with
    | .ok _ h1 => .ok () (v1, h1)
    | .throw e h1 => .throw e (v1, h1)
    | .ub => .ub

/-- Model of `void clear()`. -/
def clear {α : Type} (self : Vector) (h : Heap α) : Res (Vector × Heap α) Unit :=
  match forLoop (fun i h1 => destroy_at self._data i h1) self._size 0 h with
  | .ok _ h1 => .ok () ({ self with _size := 0 }, h1)
  | .throw e h1 => .throw e (self, h1)
  | .ub => .ub

/-- Model of `const T& operator[](size_t index) const`: no check. -/
def index {α : Type} (self : Vector) (index : Nat) (h : Heap α) : Res Unit α :=
  match h.read self._data index with
  | some x => .ok x ()
  | none => .ub

/-- Text of the `std::out_of_range` thrown by `at`:
`std::format("Vector::at() called with index: {}, greater than or equal to size: {}", ..)`. -/
def atMessage (index size : Nat) : String :=
  "Vector::at() called with index: " ++ toString index ++
    ", greater than or equal to size: " ++ toString size

/-- Model of `T& at(size_t index)` and of `const T& at(size_t index) const` (same body): the
result is the object the returned reference `_data[index]` denotes. The heap is only read. -/
def «at» {α : Type} (self : Vector) (index : Nat) (h : Heap α) : Res Unit α :=
  if index ≥ self._size then .throw (.out_of_range (atMessage index self._size)) ()
  else
    match h.read self._data index with
    | some x => .ok x ()
    | none => .ub

/-- Model of `size_t size() const noexcept`. -/
def size (self : Vector) : Nat := self._size

/-- Model of `size_t capacity() const noexcept`. -/
def capacity (self : Vector) : Nat := self._capacity

/-- Model of `bool empty() const noexcept`. -/
def empty (self : Vector) : Bool := self._size == 0

end Vector

/-- Stack objects of type `Vector<T>` by address (what `this` and `&other` compare), and the
free store. -/
structure World (α : Type) where
  objs : Nat → Vector
  heap : Heap α

/-- Model of `Vector& operator=(const Vector& other)` called on the object at address `self`
with the object at address `other`: copy, swap, and `temp` is destroyed at the end of the block. -/
def Vector.copyAssign {α : Type} [Inhabited α] (self other : Nat) (w : World α) :
    Res (World α) Unit :=
  if self ≠ other then
    match Vector.copyCtor (w.objs other) w.heap with
    | .ok temp h1 =>
      match Vector.destructor (Vector.swap (w.objs self) temp).2 h1 with
      | .ok _ h2 => .ok () ⟨Function.update w.objs self (Vector.swap (w.objs self) temp).1, h2⟩
      | .throw e h2 =>
        .throw e ⟨Function.update w.objs self (Vector.swap (w.objs self) temp).1, h2⟩
      | .ub => .ub
    | .throw e h1 => .throw e ⟨w.objs, h1⟩
    | .ub => .ub
  else .ok () w

/-- Model of `Vector& operator=(Vector&& other) noexcept` called on the object at address `self`
with the object at address `other`. -/
def Vector.moveAssign {α : Type} (self other : Nat) (w : World α) : Res (World α) Unit :=
  if self ≠ other then
    match Vector.clear (w.objs self) w.heap with
    | .ok _ (v1, h1) =>
      match deallocate v1._data v1._capacity h1 with
      | .ok _ h2 =>
        .ok () ⟨Function.update
                  (Function.update w.objs self
                    ⟨(w.objs other)._data, (w.objs other)._size, (w.objs other)._capacity⟩)
                  other ⟨none, (0 : Nat), (0 : Nat)⟩, h2⟩
      | .throw e h2 => .throw e ⟨Function.update w.objs self v1, h2⟩
      | .ub => .ub
    | .throw e (v1, h1) => .throw e ⟨Function.update w.objs self v1, h1⟩
    | .ub => .ub
  else .ok () w

/-- Run `push_back(x)` for each `x` of `xs`, in order; stops at the first call that does not
return. -/
def Vector.pushAll {α : Type} (self : Vector) (xs : List α) (h : Heap α) :
    Res (Vector × Heap α) Unit :=
  match xs with
  | [] => .ok () (self, h)
  | x :: rest =>
    match Vector.push_back self x h with
    | .ok _ (v1, h1) => Vector.pushAll v1 rest h1
    | .throw e s => .throw e s
    | .ub => .ub

/-- Representation invariant of a Vector holding the elements `xs`: `_size` counts them,
`_size ≤ _capacity`, both are `size_t` values, and `_data` is null with no capacity or owns a block
of `_capacity` slots of which the first `_size` hold `xs` and the others hold no object. -/
def Vector.Holds {α : Type} (self : Vector) (h : Heap α) (xs : List α) : Prop :=
  self._size = xs.length ∧ self._size ≤ self._capacity ∧ self._capacity < SIZE_MOD ∧
  match self._data with
  | none => self._capacity = 0
  | some a =>
    h.blocks[a]? = some (some (xs.map Slot.live ++
      List.replicate (self._capacity - self._size) Slot.raw))

/-! ## `RefCounter` and `SharedPtr<T>` (SharedPtr.h) -/

/-- Data member of `RefCounter`. -/
structure RefCounter where
  m_counter : Int
  deriving DecidableEq, Repr

namespace RefCounter

/-- Model of `RefCounter() : m_counter(1)`. -/
def new : RefCounter := ⟨1⟩

/-- Model of `void increment() { ++m_counter; }`; `none` is signed overflow. -/
def increment (self : RefCounter) : Option RefCounter :=
  if self.m_counter = INT_MAX then none else some ⟨self.m_counter + 1⟩

/-- Model of `void decrement() { --m_counter; }`; `none` is signed overflow. -/
def decrement (self : RefCounter) : Option RefCounter :=
  if self.m_counter = INT_MIN then none else some ⟨self.m_counter - 1⟩

/-- Model of `int get() const`. -/
def get (self : RefCounter) : Int := self.m_counter

end RefCounter

/-- Data members of `SharedPtr<T>`: `obj` is null or names a resource, `counter` is null or the
address of a `RefCounter` on the free store. -/
structure SharedPtr where
  obj : Option Nat
  counter : Option Nat
  deriving DecidableEq, Repr

/-- State of a program that uses `SharedPtr<T>`. -/
structure SharedWorld where
  /-- The `SharedPtr` objects by identity (what `this` and `&other` compare): `none` once the
  destructor has run. -/
  ptrs : List (Option SharedPtr)
  /-- The `RefCounter` objects created by `new RefCounter()`: `none` once deleted. -/
  counters : List (Option RefCounter)
  /-- Log of the resources destroyed by `delete obj`, most recent first. -/
  deleted : List Nat
  /-- For each coming `new RefCounter()`: does it throw `std::bad_alloc`? (empty: none does) -/
  allocFaults : List Bool
  deriving DecidableEq, Repr

namespace SharedPtr

/-- State with no object. -/
def init : SharedWorld := ⟨[], [], [], []⟩

/-- Model of `delete obj`: nothing for a null pointer, undefined behaviour for a resource that was
already destroyed. -/
def deleteObj (obj : Option Nat) (w : SharedWorld) : Res SharedWorld Unit :=
  match obj with
  | none => .ok () w
  | some r => if r ∈ w.deleted then .ub else .ok () { w with deleted := r :: w.deleted }

/-- Model of `explicit SharedPtr(T* raw = nullptr)`: a new object is created, its identity is
returned. -/
def ctor (raw : Option Nat) (w : SharedWorld) : Res SharedWorld Nat :=
  match raw with
  | some r =>
    match w.allocFaults with
    | true :: rest => .throw .bad_alloc { w with allocFaults := rest }
    | _ => .ok w.ptrs.length
        { w with ptrs := w.ptrs ++ [some ⟨some r, some w.counters.length⟩],
                 counters := w.counters ++ [some RefCounter.new],
                 allocFaults := w.allocFaults.tail }
  | none => .ok w.ptrs.length { w with ptrs := w.ptrs ++ [some ⟨none, none⟩] }

/-- Model of `counter->increment()` for the counter at address `c`. -/
def incrementAt (c : Nat) (w : SharedWorld) : Res SharedWorld Unit :=
  match w.counters[c]? with
  | some (some rc) =>
    match rc.increment with
    | some rc1 => .ok () { w with counters := w.counters.set c (some rc1) }
    | none => .ub
  | _ => .ub

/-- Model of `SharedPtr(const SharedPtr& other)`: a new object is created from the live object
`other`, its identity is returned. -/
def copyCtor (other : Nat) (w : SharedWorld) : Res SharedWorld Nat :=
  match w.ptrs[other]? with
  | some (some o) =>
    match o.counter with
    | some c =>
      match incrementAt c { w with ptrs := w.ptrs ++ [some ⟨o.obj, o.counter⟩] } with
      | .ok _ w1 => .ok w.ptrs.length w1
      | .throw e w1 => .throw e w1
      | .ub => .ub
    | none => .ok w.ptrs.length { w with ptrs := w.ptrs ++ [some ⟨o.obj, o.counter⟩] }
  | _ => .ub

/-- Model of `void release()` on the live object `self`. -/
def release (self : Nat) (w : SharedWorld) : Res SharedWorld Unit :=
  match w.ptrs[self]? with
  | some (some p) =>
    match p.counter with
    | some c =>
      match w.counters[c]? with
      | some (some rc) =>
        match rc.decrement with
        | some rc1 =>
          if rc1.get = 0 then
            match deleteObj p.obj { w with counters := w.counters.set c (some rc1) } with
            | .ok _ w1 =>
              .ok () { w1 with counters := w1.counters.set c none,
                               ptrs := w1.ptrs.set self (some ⟨none, none⟩) }
            | .throw e w1 => .throw e w1
            | .ub => .ub
          else
            .ok () { w with counters := w.counters.set c (some rc1),
                            ptrs := w.ptrs.set self (some ⟨none, none⟩) }
        | none => .ub
      | _ => .ub
    | none => .ok () w
  | _ => .ub

/-- Model of `SharedPtr& operator=(const SharedPtr& other)` on the live objects `self` and
`other`. -/
def copyAssign (self other : Nat) (w : SharedWorld) : Res SharedWorld Unit :=
  match w.ptrs[self]?, w.ptrs[other]? with
  | some (some _), some (some _) =>
    if self ≠ other then
      match release self w with
      | .ok _ w1 =>
        match w1.ptrs[other]? with
        | some (some o) =>
          match o.counter with
          | some c => incrementAt c { w1 with ptrs := w1.ptrs.set self (some ⟨o.obj, o.counter⟩) }
          | none => .ok () { w1 with ptrs := w1.ptrs.set self (some ⟨o.obj, o.counter⟩) }
        | _ => .ub
      | .throw e w1 => .throw e w1
      | .ub => .ub
    else .ok () w
  | _, _ => .ub

/-- Model of `~SharedPtr()` on the live object `self`: `release()`, then the object is gone. -/
def dtor (self : Nat) (w : SharedWorld) : Res SharedWorld Unit :=
  match release self w with
  | .ok _ w1 => .ok () { w1 with ptrs := w1.ptrs.set self none }
  | .throw e w1 => .throw e w1
  | .ub => .ub

/-- Model of `int use_count() const` on the object `self`; `none` is undefined behaviour (no such
live object, or its counter was deleted). -/
def use_count (self : Nat) (w : SharedWorld) : Option Int :=
  match w.ptrs[self]? with
  | some (some p) =>
    match p.counter with
    | some c =>
      match w.counters[c]? with
      | some (some rc) => some rc.get
      | _ => none
    | none => some 0
  | _ => none

/-- Model of `T* get() const` on the object `self`; the outer `none` is: no such live object. -/
def get (self : Nat) (w : SharedWorld) : Option (Option Nat) :=
  match w.ptrs[self]? with
  | some (some p) => some p.obj
  | _ => none

end SharedPtr

/-- Operations of a client program on its `SharedPtr` objects. -/
inductive SharedOp where
  | ctor (raw : Option Nat)
  | copyCtor (other : Nat)
  | copyAssign (self other : Nat)
  | dtor (self : Nat)
  deriving DecidableEq, Repr

/-- One operation of the client program. -/
def SharedOp.step (op : SharedOp) (w : SharedWorld) : Res SharedWorld Unit :=
  match op with
  | .ctor raw =>
    match SharedPtr.ctor raw w with
    | .ok _ w1 => .ok () w1
    | .throw e w1 => .throw e w1
    | .ub => .ub
  | .copyCtor other =>
    match SharedPtr.copyCtor other w with
    | .ok _ w1 => .ok () w1
    | .throw e w1 => .throw e w1
    | .ub => .ub
  | .copyAssign self other => SharedPtr.copyAssign self other w
  | .dtor self => SharedPtr.dtor self w

/-- Is `q` a live `SharedPtr` whose `obj` is the resource `r`? -/
def SharedPtr.hasObj (r : Nat) (q : Option SharedPtr) : Bool :=
  match q with
  | some p => p.obj == some r
  | none => false

/-- Is `q` a live `SharedPtr` whose `counter` is the address `c`? -/
def SharedPtr.hasCounter (c : Nat) (q : Option SharedPtr) : Bool :=
  match q with
  | some p => p.counter == some c
  | none => false

/-- Number of live `SharedPtr` objects whose `obj` is the resource `r`. -/
def SharedWorld.sharers (w : SharedWorld) (r : Nat) : Nat :=
  w.ptrs.countP (SharedPtr.hasObj r)

/-- Number of live `SharedPtr` objects whose `counter` is the address `c`. -/
def SharedWorld.owners (w : SharedWorld) (c : Nat) : Nat :=
  w.ptrs.countP (SharedPtr.hasCounter c)

/-- A resource that no live `SharedPtr` references and that was not destroyed. -/
def SharedWorld.Fresh (w : SharedWorld) (r : Nat) : Prop :=
  r ∉ w.deleted ∧ ∀ p, some p ∈ w.ptrs → p.obj ≠ some r

/-- Run a client program, operation by operation; an operation that throws leaves the state the
exception left behind and the program goes on. `none`: some operation had undefined behaviour. -/
def SharedOp.run : List SharedOp → SharedWorld → Option SharedWorld
  | [], w => some w
  | op :: rest, w =>
    match op.step w with
    | .ok _ w1 => SharedOp.run rest w1
    | .throw _ w1 => SharedOp.run rest w1
    | .ub => none

/-- Does the program pass every resource to `SharedPtr(T*)` when it is fresh (never the same
resource twice, never a destroyed one)? -/
def SharedOp.FreshRun : List SharedOp → SharedWorld → Prop
  | [], _ => True
  | op :: rest, w =>
    (match op with
      | .ctor (some r) => w.Fresh r
      | _ => True) ∧
    match op.step w with
    | .ok _ w1 => SharedOp.FreshRun rest w1
    | .throw _ w1 => SharedOp.FreshRun rest w1
    | .ub => True

/-! ## `UniquePtr<T, Deleter>` (UniquePtr.h) -/

/-- Data members of `UniquePtr<T, Deleter>`: `ptr` is null or names a resource, `deleter` is the
value of the `Deleter` object. -/
structure UniquePtr where
  ptr : Option Nat
  deleter : Nat
  deriving DecidableEq, Repr

/-- State of a program that uses `UniquePtr<T, Deleter>`. -/
structure UniqueWorld where
  /-- The `UniquePtr` objects by address (what `this` is). -/
  objs : Nat → UniquePtr
  /-- Log of the calls `deleter(ptr)` as `(deleter, ptr)`, most recent first. -/
  calls : List (Nat × Nat)

namespace UniquePtr

/-- The value of `Deleter{}`. -/
def defaultDeleter : Nat := 0

/-- Model of `constexpr UniquePtr()`. -/
def new : UniquePtr := ⟨none, defaultDeleter⟩

/-- Model of `explicit UniquePtr(T* p)`. -/
def ctor (p : Option Nat) : UniquePtr := ⟨p, defaultDeleter⟩

/-- Model of `UniquePtr(UniquePtr&& other) noexcept`: returns the new object and what is left of
`other` (its deleter is moved from, its value is kept). -/
def moveCtor (other : UniquePtr) : UniquePtr × UniquePtr :=
  (⟨other.ptr, other.deleter⟩, { other with ptr := none })

/-- Model of `void reset(T* p = nullptr)`: `if (ptr) deleter(ptr); ptr = p;`. Returns the object
and the log of deleter calls. -/
def reset (self : UniquePtr) (p : Option Nat) (calls : List (Nat × Nat)) :
    UniquePtr × List (Nat × Nat) :=
  match self.ptr with
  | some r => ({ self with ptr := p }, (self.deleter, r) :: calls)
  | none => ({ self with ptr := p }, calls)

/-- Model of `~UniquePtr()`: `reset();`, after which the object is gone. Returns the log. -/
def dtor (self : UniquePtr) (calls : List (Nat × Nat)) : List (Nat × Nat) :=
  (reset self none calls).2

/-- Model of `T* release() noexcept`: returns `std::exchange(ptr, nullptr)` and the object. -/
def release (self : UniquePtr) : Option Nat × UniquePtr :=
  (self.ptr, { self with ptr := none })

/-- Model of `void swap(UniquePtr& other) noexcept`: returns the new `*this` and `other`. -/
def swap (self other : UniquePtr) : UniquePtr × UniquePtr :=
  (⟨other.ptr, other.deleter⟩, ⟨self.ptr, self.deleter⟩)

/-- Model of `T* get() const noexcept`. -/
def get (self : UniquePtr) : Option Nat := self.ptr

/-- Model of `explicit operator bool() const noexcept`: `ptr != nullptr`. -/
def toBool (self : UniquePtr) : Bool := self.ptr != none

/-- Model of `UniquePtr& operator=(UniquePtr&& other) noexcept` called on the object at address
`self` with the object at address `other`. The guard of the source is `if (this != other)`: it
compares a `UniquePtr*` with a `UniquePtr`, the repository declares no operator for that, and the
member cannot be instantiated as written. The source gives the comparison no value, so it is the
argument `differs`: the value the comparison has in a build that supplies the operator. The body
is `reset()`, then `ptr = std::exchange(other.ptr, nullptr)`, then
`deleter = std::move(other.deleter)`. -/
def moveAssign (differs : Bool) (self other : Nat) (w : UniqueWorld) : UniqueWorld :=
  if differs then
    let r := reset (w.objs self) none w.calls
    let objs1 := Function.update w.objs self r.1
    let old := (objs1 other).ptr
    let objs2 := Function.update objs1 other { objs1 other with ptr := none }
    let objs3 := Function.update objs2 self { objs2 self with ptr := old }
    let objs4 := Function.update objs3 self { objs3 self with deleter := (objs3 other).deleter }
    ⟨objs4, r.2⟩
  else w

/-- Does the pointer own a resource on which a deleter was called? -/
def OwnsDeleted (self : UniquePtr) (calls : List (Nat × Nat)) : Prop :=
  ∃ r d, self.ptr = some r ∧ (d, r) ∈ calls

end UniquePtr

/-- Invariant of the `SharedPtr` objects of a program: `obj` is null iff `counter` is null; a
counter that some live object points to exists and holds the number of live objects that point to
it; two live objects have the same resource iff they have the same counter; a resource that a live
object references was not destroyed. -/
structure SharedWorld.Inv (w : SharedWorld) : Prop where
  null_iff : ∀ p, some p ∈ w.ptrs → (p.obj = none ↔ p.counter = none)
  count : ∀ c, 0 < w.owners c → w.counters[c]? = some (some ⟨(w.owners c : Int)⟩)
  share : ∀ p q, some p ∈ w.ptrs → some q ∈ w.ptrs → p.counter ≠ none →
    (p.obj = q.obj ↔ p.counter = q.counter)
  alive : ∀ p r, some p ∈ w.ptrs → p.obj = some r → r ∉ w.deleted

/-- No resource has two counters: two live `SharedPtr` objects with the same non-null `obj` have
the same `counter`. -/
def SharedWorld.OneCounterPerResource (w : SharedWorld) : Prop :=
  ∀ (i j : Nat) (p q : SharedPtr), w.ptrs[i]? = some (some p) → w.ptrs[j]? = some (some q) →
    p.obj ≠ none → p.obj = q.obj → p.counter = q.counter

/-! ## Lemmas on raw storage and loops -/

theorem forLoop_ok_inv {σ : Type} (body : Nat → σ → Res σ Unit) (Inv : Nat → σ → Prop) :
    ∀ (k i : Nat) (s s' : σ),
      (∀ j t t1, i ≤ j → j < i + k → Inv j t → body j t = .ok () t1 → Inv (j + 1) t1) →
      Inv i s → forLoop body k i s = .ok () s' → Inv (i + k) s' := by
  intro k
  induction k with
  | zero =>
    intro i s s' _ hi hrun
    simp only [forLoop, Res.ok.injEq, true_and] at hrun
    subst hrun
    simpa using hi
  | succ k ih =>
    intro i s s' hstep hi hrun
    simp only [forLoop] at hrun
    cases hb : body i s with
    | ok r s1 =>
      rw [hb] at hrun
      have h1 : Inv (i + 1) s1 := hstep i s s1 (le_refl _) (by omega) hi hb
      have := ih (i + 1) s1 s'
        (fun j t t1 hj1 hj2 => hstep j t t1 (by omega) (by omega)) h1 hrun
      have e : i + 1 + k = i + (k + 1) := by omega
      rw [e] at this
      exact this
    | throw e s1 => rw [hb] at hrun; cases hrun
    | ub => rw [hb] at hrun; cases hrun

theorem forLoop_total {σ : Type} (body : Nat → σ → Res σ Unit) (Inv : Nat → σ → Prop) :
    ∀ (k i : Nat) (s : σ),
      (∀ j t, i ≤ j → j < i + k → Inv j t → ∃ t1, body j t = .ok () t1 ∧ Inv (j + 1) t1) →
      Inv i s → ∃ s', forLoop body k i s = .ok () s' ∧ Inv (i + k) s' := by
  intro k
  induction k with
  | zero =>
    intro i s _ hi
    exact ⟨s, rfl, by simpa using hi⟩
  | succ k ih =>
    intro i s hstep hi
    obtain ⟨s1, hb, h1⟩ := hstep i s (le_refl _) (by omega) hi
    obtain ⟨s', hrun, h'⟩ := ih (i + 1) s1
      (fun j t hj1 hj2 => hstep j t (by omega) (by omega)) h1
    refine ⟨s', ?_, ?_⟩
    · simp only [forLoop, hb]
      exact hrun
    · have e : i + 1 + k = i + (k + 1) := by omega
      rw [e] at h'
      exact h'

theorem forLoop_throw_inv {σ : Type} (body : Nat → σ → Res σ Unit) (P : σ → Prop)
    (hok : ∀ j t t1, P t → body j t = .ok () t1 → P t1)
    (hthrow : ∀ j t e t1, P t → body j t = .throw e t1 → P t1) :
    ∀ (k i : Nat) (s s' : σ) (e : Exn), P s → forLoop body k i s = .throw e s' → P s' := by
  intro k
  induction k with
  | zero =>
    intro i s s' e _ hrun
    simp [forLoop] at hrun
  | succ k ih =>
    intro i s s' e hs hrun
    simp only [forLoop] at hrun
    cases hb : body i s with
    | ok r s1 =>
      rw [hb] at hrun
      exact ih (i + 1) s1 s' e (hok i s s1 hs hb) hrun
    | throw e1 s1 =>
      rw [hb] at hrun
      simp only [Res.throw.injEq] at hrun
      obtain ⟨_, rfl⟩ := hrun
      exact hthrow i s e1 s1 hs hb
    | ub => rw [hb] at hrun; cases hrun

theorem Heap.block_some {α : Type} (h : Heap α) (a : Nat) (b : List (Slot α))
    (hb : h.blocks[a]? = some (some b)) : h.block (some a) = some b := by
  simp [Heap.block, hb]

theorem Heap.block_eq_some {α : Type} (h : Heap α) (p : Option Nat) (b : List (Slot α))
    (hb : h.block p = some b) : ∃ a, p = some a ∧ h.blocks[a]? = some (some b) := by
  cases p with
  | none => simp [Heap.block] at hb
  | some a =>
    refine ⟨a, rfl, ?_⟩
    unfold Heap.block at hb
    simp only at hb
    split at hb
    · simp only [Option.some.injEq] at hb
      subst hb
      assumption
    · cases hb

theorem construct_at_ok {α : Type} (a i : Nat) (x : α) (t : Heap α) (b : List (Slot α))
    (hb : t.blocks[a]? = some (some b)) (hi : i < b.length) (hf : t.ctorFaults = []) :
    construct_at (some a) i x t =
      .ok () { t with blocks := t.blocks.set a (some (b.set i (Slot.live x))),
                      ctorFaults := [] } := by
  simp [construct_at, Heap.block_some t a b hb, hi, hf]

theorem construct_at_ok_elim {α : Type} (p : Option Nat) (i : Nat) (x : α) (t t1 : Heap α)
    (hrun : construct_at p i x t = .ok () t1) :
    ∃ a b, p = some a ∧ t.blocks[a]? = some (some b) ∧ i < b.length ∧
      t1 = { t with blocks := t.blocks.set a (some (b.set i (Slot.live x))),
                    ctorFaults := t.ctorFaults.tail } := by
  cases p with
  | none => simp [construct_at] at hrun
  | some a =>
    cases hblk : t.block (some a) with
    | none => simp [construct_at, hblk] at hrun
    | some b =>
      obtain ⟨a', ha', hb⟩ := Heap.block_eq_some t _ b hblk
      simp only [Option.some.injEq] at ha'
      subst ha'
      simp only [construct_at, hblk] at hrun
      by_cases hi : i < b.length
      · simp only [hi, if_true] at hrun
        split at hrun
        · cases hrun
        · simp only [Res.ok.injEq, true_and] at hrun
          exact ⟨a, b, rfl, hb, hi, hrun.symm⟩
      · simp [hi] at hrun

theorem construct_at_throw_elim {α : Type} (p : Option Nat) (i : Nat) (x : α) (t t1 : Heap α)
    (e : Exn) (hrun : construct_at p i x t = .throw e t1) :
    e = .ctor_failure ∧ t1 = { t with ctorFaults := t.ctorFaults.tail } := by
  cases p with
  | none => simp [construct_at] at hrun
  | some a =>
    cases hblk : t.block (some a) with
    | none => simp [construct_at, hblk] at hrun
    | some b =>
      simp only [construct_at, hblk] at hrun
      by_cases hi : i < b.length
      · simp only [hi, if_true] at hrun
        split at hrun
        · rename_i rest hf
          simp only [Res.throw.injEq] at hrun
          obtain ⟨rfl, rfl⟩ := hrun
          simp [hf]
        · cases hrun
      · simp [hi] at hrun

theorem destroy_at_ok_elim {α : Type} (p : Option Nat) (i : Nat) (t t1 : Heap α)
    (hrun : destroy_at p i t = .ok () t1) :
    ∃ a b x, p = some a ∧ t.blocks[a]? = some (some b) ∧ b[i]? = some (Slot.live x) ∧
      t1 = { t with blocks := t.blocks.set a (some (b.set i Slot.raw)),
                    destroyed := (a, i) :: t.destroyed } := by
  cases p with
  | none => simp [destroy_at] at hrun
  | some a =>
    cases hblk : t.block (some a) with
    | none => simp [destroy_at, hblk] at hrun
    | some b =>
      obtain ⟨a', ha', hb⟩ := Heap.block_eq_some t _ b hblk
      simp only [Option.some.injEq] at ha'
      subst ha'
      simp only [destroy_at, hblk] at hrun
      split at hrun
      · rename_i x hx
        simp only [Res.ok.injEq, true_and] at hrun
        exact ⟨a, b, x, rfl, hb, hx, hrun.symm⟩
      · cases hrun

theorem destroy_at_ok {α : Type} (a i : Nat) (x : α) (t : Heap α) (b : List (Slot α))
    (hb : t.blocks[a]? = some (some b)) (hx : b[i]? = some (Slot.live x)) :
    destroy_at (some a) i t =
      .ok () { t with blocks := t.blocks.set a (some (b.set i Slot.raw)),
                      destroyed := (a, i) :: t.destroyed } := by
  simp [destroy_at, Heap.block_some t a b hb, hx]

theorem destroy_at_not_throw {α : Type} (p : Option Nat) (i : Nat) (t t1 : Heap α) (e : Exn) :
    destroy_at p i t ≠ .throw e t1 := by
  intro hrun
  cases p with
  | none => simp [destroy_at] at hrun
  | some a =>
    cases hblk : t.block (some a) with
    | none => simp [destroy_at, hblk] at hrun
    | some b =>
      simp only [destroy_at, hblk] at hrun
      split at hrun <;> cases hrun

theorem deallocate_ok {α : Type} (a n : Nat) (t : Heap α) (b : List (Slot α))
    (hb : t.blocks[a]? = some (some b)) (hn : b.length = n) :
    deallocate (some a) n t = .ok () { t with blocks := t.blocks.set a none } := by
  simp [deallocate, Heap.block_some t a b hb, hn]

theorem deallocate_ok_elim {α : Type} (p : Option Nat) (n : Nat) (t t1 : Heap α)
    (hrun : deallocate p n t = .ok () t1) :
    (p = none ∧ t1 = t) ∨
    ∃ a b, p = some a ∧ t.blocks[a]? = some (some b) ∧ b.length = n ∧
      t1 = { t with blocks := t.blocks.set a none } := by
  unfold deallocate at hrun
  split at hrun
  · simp only [Res.ok.injEq, true_and] at hrun
    exact Or.inl ⟨rfl, hrun.symm⟩
  · rename_i a
    split at hrun
    · cases hrun
    · rename_i b hblk
      obtain ⟨a', ha', hb⟩ := Heap.block_eq_some t _ b hblk
      simp only [Option.some.injEq] at ha'
      subst ha'
      by_cases hn : b.length = n
      · simp only [hn, if_true, Res.ok.injEq, true_and] at hrun
        exact Or.inr ⟨a, b, rfl, hb, hn, hrun.symm⟩
      · simp [hn] at hrun

theorem deallocate_not_throw {α : Type} (p : Option Nat) (n : Nat) (t t1 : Heap α) (e : Exn) :
    deallocate p n t ≠ .throw e t1 := by
  unfold deallocate
  intro hrun
  split at hrun
  · cases hrun
  · split at hrun
    · cases hrun
    · split at hrun <;> cases hrun

theorem allocate_ok_elim {α : Type} (n : Nat) (t t1 : Heap α) (p : Nat)
    (hrun : allocate n t = .ok p t1) :
    p = t.blocks.length ∧
      t1 = { t with blocks := t.blocks ++ [some (List.replicate n Slot.raw)],
                    allocFaults := t.allocFaults.tail } := by
  unfold allocate at hrun
  split at hrun
  · cases hrun
  · simp only [Res.ok.injEq] at hrun
    exact ⟨hrun.1.symm, hrun.2.symm⟩

theorem allocate_ok {α : Type} (n : Nat) (t : Heap α) (hf : t.allocFaults = []) :
    allocate n t = .ok t.blocks.length
      { t with blocks := t.blocks ++ [some (List.replicate n Slot.raw)], allocFaults := [] } := by
  simp [allocate, hf]

theorem allocate_throw_elim {α : Type} (n : Nat) (t t1 : Heap α) (e : Exn)
    (hrun : allocate n t = .throw e t1) :
    e = .bad_alloc ∧ t1 = { t with allocFaults := t.allocFaults.tail } := by
  unfold allocate at hrun
  split at hrun
  · rename_i rest hf
    simp only [Res.throw.injEq] at hrun
    obtain ⟨rfl, rfl⟩ := hrun
    simp [hf]
  · cases hrun

/-! ## Lemmas on `reallocate` and `push_back` -/

theorem Vector.Holds.data_of_pos {α : Type} {v : Vector} {h : Heap α} {xs : List α}
    (hH : v.Holds h xs) (hpos : 0 < v._size) :
    ∃ a, v._data = some a ∧ a < h.blocks.length ∧
      h.blocks[a]? = some (some (xs.map Slot.live ++
        List.replicate (v._capacity - v._size) Slot.raw)) := by
  obtain ⟨h1, h2, h3, h4⟩ := hH
  cases hd : v._data with
  | none =>
    rw [hd] at h4
    simp only at h4
    omega
  | some a =>
    rw [hd] at h4
    simp only at h4
    refine ⟨a, rfl, ?_, h4⟩
    by_contra hlt
    rw [List.getElem?_eq_none (by omega)] at h4
    cases h4

theorem Vector.Holds.read_old {α : Type} {v : Vector} {h : Heap α} {xs : List α}
    (hH : v.Holds h xs) (t : Heap α) (extra : List (Option (List (Slot α))))
    (ht : t.blocks = h.blocks ++ extra) (j : Nat) (x : α) (hx : xs[j]? = some x) :
    t.read v._data j = some x := by
  have hj : j < xs.length := by
    by_contra hlt
    rw [List.getElem?_eq_none (by omega)] at hx
    cases hx
  obtain ⟨a, hd, ha, hb⟩ := hH.data_of_pos (by have := hH.1; omega)
  have hb' : t.blocks[a]? = some (some (xs.map Slot.live ++
        List.replicate (v._capacity - v._size) Slot.raw)) := by
    rw [ht, List.getElem?_append_left ha]
    exact hb
  unfold Heap.read
  rw [hd, Heap.block_some t a _ hb']
  simp only
  rw [List.getElem?_append_left (by simpa using hj)]
  simp [hx]

theorem fill_step {α : Type} (xs : List α) (n j : Nat) (x : α) (hx : xs[j]? = some x)
    (hjn : j < n) :
    (List.map Slot.live (xs.take j) ++ List.replicate (n - j) Slot.raw).set j (Slot.live x) =
      List.map Slot.live (xs.take (j + 1)) ++ List.replicate (n - (j + 1)) Slot.raw := by
  have hj : j < xs.length := by
    by_contra hlt
    rw [List.getElem?_eq_none (by omega)] at hx
    cases hx
  have hlen : (List.map Slot.live (xs.take j)).length = j := by
    simp [List.length_take]
    omega
  have e : n - j = (n - (j + 1)) + 1 := by omega
  rw [e, List.replicate_succ, List.take_succ, hx, List.set_append, hlen]
  simp

theorem fill_length {α : Type} (xs : List α) (n j : Nat) (hj : j ≤ xs.length) (hjn : j ≤ n) :
    (List.map (Slot.live : α → Slot α) (xs.take j) ++ List.replicate (n - j) Slot.raw).length
      = n := by
  simp [List.length_take]
  omega

theorem Vector.moveLoop_ok {α : Type} {v : Vector} {h : Heap α} {xs : List α}
    (hH : v.Holds h xs) (n nd : Nat) (hnd : nd = h.blocks.length) (t t' : Heap α)
    (ht : t.blocks = h.blocks ++ [some (List.replicate n Slot.raw)])
    (hrun : forLoop (fun i h2 =>
        match h2.read v._data i with
        | some x => construct_at (some nd) i x h2
        | none => .ub) v._size 0 t = .ok () t') :
    v._size ≤ n ∧
    t'.blocks = h.blocks ++
      [some (xs.map Slot.live ++ List.replicate (n - v._size) Slot.raw)] ∧
    t'.destroyed = t.destroyed ∧ t'.allocFaults = t.allocFaults ∧
    (t.ctorFaults = [] → t'.ctorFaults = []) := by
  have hsz := hH.1
  have key := forLoop_ok_inv _
    (fun j (s : Heap α) => j ≤ n ∧
      s.blocks = h.blocks ++
        [some ((xs.take j).map Slot.live ++ List.replicate (n - j) Slot.raw)] ∧
      s.destroyed = t.destroyed ∧ s.allocFaults = t.allocFaults ∧
      (t.ctorFaults = [] → s.ctorFaults = []))
    v._size 0 t t' ?_ ?_ hrun
  · obtain ⟨k1, k2, k3, k4, k5⟩ := key
    simp only [zero_add] at k1 k2
    rw [hsz, List.take_length] at k2
    rw [hsz]
    exact ⟨by omega, k2, k3, k4, k5⟩
  · intro j s s1 _ hj hinv hbody
    obtain ⟨i1, i2, i3, i4, i5⟩ := hinv
    have hjx : j < xs.length := by omega
    have hx : xs[j]? = some xs[j] := List.getElem?_eq_getElem hjx
    have hread := hH.read_old s _ i2 j xs[j] hx
    simp only [hread] at hbody
    obtain ⟨a, b, ha, hb, hlt, hs1⟩ := construct_at_ok_elim _ _ _ _ _ hbody
    simp only [Option.some.injEq] at ha
    subst ha
    rw [i2, hnd, List.getElem?_concat_length] at hb
    simp only [Option.some.injEq] at hb
    subst hb
    rw [fill_length xs n j (by omega) i1] at hlt
    subst hs1
    refine ⟨hlt, ?_, i3, i4, ?_⟩
    · simp only
      rw [i2, hnd, fill_step xs n j xs[j] hx hlt]
      simp
    · intro hcf
      simp [i5 hcf]
  · refine ⟨Nat.zero_le _, ?_, rfl, rfl, fun hcf => hcf⟩
    simpa using ht

theorem Vector.moveLoop_total {α : Type} {v : Vector} {h : Heap α} {xs : List α}
    (hH : v.Holds h xs) (n nd : Nat) (hnd : nd = h.blocks.length) (t : Heap α)
    (ht : t.blocks = h.blocks ++ [some (List.replicate n Slot.raw)])
    (hcf : t.ctorFaults = []) (hn : v._size ≤ n) :
    ∃ t', forLoop (fun i h2 =>
        match h2.read v._data i with
        | some x => construct_at (some nd) i x h2
        | none => .ub) v._size 0 t = .ok () t' := by
  have hsz := hH.1
  have key := forLoop_total
    (fun i (h2 : Heap α) =>
        match h2.read v._data i with
        | some x => construct_at (some nd) i x h2
        | none => .ub)
    (fun j (s : Heap α) =>
      s.blocks = h.blocks ++
        [some ((xs.take j).map Slot.live ++ List.replicate (n - j) Slot.raw)] ∧
      s.ctorFaults = [])
    v._size 0 t ?_ ?_
  · obtain ⟨t', hrun, _⟩ := key
    exact ⟨t', hrun⟩
  · intro j s _ hj hinv
    obtain ⟨i2, i5⟩ := hinv
    have hjx : j < xs.length := by omega
    have hx : xs[j]? = some xs[j] := List.getElem?_eq_getElem hjx
    have hread := hH.read_old s _ i2 j xs[j] hx
    have hjn : j < n := by omega
    have hb : s.blocks[nd]? =
        some (some ((xs.take j).map Slot.live ++ List.replicate (n - j) Slot.raw)) := by
      rw [i2, hnd, List.getElem?_concat_length]
    have hlt : j < ((xs.take j).map (Slot.live : α → Slot α) ++
        List.replicate (n - j) Slot.raw).length := by
      rw [fill_length xs n j (by omega) (by omega)]
      exact hjn
    refine ⟨{ s with
        blocks := s.blocks.set nd (some (((xs.take j).map Slot.live ++
          List.replicate (n - j) Slot.raw).set j (Slot.live xs[j]))),
        ctorFaults := [] }, ?_, ?_, rfl⟩
    · simp only [hread]
      exact construct_at_ok nd j xs[j] s _ hb hlt i5
    · simp only
      rw [i2, hnd, fill_step xs n j xs[j] hx hjn]
      simp
  · exact ⟨by simpa using ht, hcf⟩

/-- What a returning `reallocate` leaves behind on a Vector that satisfies its invariant. -/
theorem Vector.reallocate_ok_elim {α : Type} {v v' : Vector} {h h' : Heap α} {xs : List α}
    (hH : v.Holds h xs) (n : Nat)
    (hrun : Vector.reallocate v n h = .ok () (v', h')) :
    v' = ⟨some h.blocks.length, v._size, n⟩ ∧ v._size ≤ n ∧
    h'.blocks[h.blocks.length]? =
      some (some (xs.map Slot.live ++ List.replicate (n - v._size) Slot.raw)) ∧
    h'.blocks.length = h.blocks.length + 1 ∧
    h'.destroyed = h.destroyed ∧ h'.allocFaults = h.allocFaults.tail ∧
    (h.ctorFaults = [] → h'.ctorFaults = []) := by
  unfold Vector.reallocate at hrun
  cases ha : allocate n h with
  | throw e h1 => rw [ha] at hrun; cases hrun
  | ub => rw [ha] at hrun; cases hrun
  | ok nd h1 =>
    rw [ha] at hrun
    simp only at hrun
    obtain ⟨hnd, hh1⟩ := allocate_ok_elim n h h1 nd ha
    cases hl : forLoop (fun i h2 =>
        match h2.read v._data i with
        | some x => construct_at (some nd) i x h2
        | none => .ub) v._size 0 h1 with
    | throw e h2 => rw [hl] at hrun; cases hrun
    | ub => rw [hl] at hrun; cases hrun
    | ok r h2 =>
      rw [hl] at hrun
      simp only at hrun
      have hblk1 : h1.blocks = h.blocks ++ [some (List.replicate n Slot.raw)] := by
        rw [hh1]
      obtain ⟨l1, l2, l3, l4, l5⟩ := Vector.moveLoop_ok hH n nd hnd h1 h2 hblk1 hl
      have hd1 : h1.destroyed = h.destroyed := by rw [hh1]
      have haf1 : h1.allocFaults = h.allocFaults.tail := by rw [hh1]
      have hcf1 : h1.ctorFaults = h.ctorFaults := by rw [hh1]
      cases hde : deallocate v._data v._capacity h2 with
      | throw e h3 => rw [hde] at hrun; cases hrun
      | ub => rw [hde] at hrun; cases hrun
      | ok r3 h3 =>
        rw [hde] at hrun
        simp only [Res.ok.injEq, Prod.mk.injEq, true_and] at hrun
        obtain ⟨hv', hh'⟩ := hrun
        subst hh'
        refine ⟨?_, l1, ?_, ?_, ?_, ?_, ?_⟩
        · rw [← hv', hnd]
        · rcases deallocate_ok_elim _ _ _ _ hde with ⟨_, rfl⟩ | ⟨a, b, hp, hb, _, rfl⟩
          · rw [l2, List.getElem?_concat_length]
          · have halt : a < h.blocks.length := by
              obtain ⟨_, _, _, h4⟩ := hH
              rw [hp] at h4
              simp only at h4
              by_contra hlt
              rw [List.getElem?_eq_none (by omega)] at h4
              cases h4
            simp only
            rw [List.getElem?_set_ne (by omega), l2, List.getElem?_concat_length]
        · rcases deallocate_ok_elim _ _ _ _ hde with ⟨_, rfl⟩ | ⟨a, b, hp, hb, _, rfl⟩
          · rw [l2]; simp
          · simp [l2]
        · rcases deallocate_ok_elim _ _ _ _ hde with ⟨_, rfl⟩ | ⟨a, b, hp, hb, _, rfl⟩
          · rw [l3, hd1]
          · simp only; rw [l3, hd1]
        · rcases deallocate_ok_elim _ _ _ _ hde with ⟨_, rfl⟩ | ⟨a, b, hp, hb, _, rfl⟩
          · rw [l4, haf1]
          · simp only; rw [l4, haf1]
        · intro hcf
          rcases deallocate_ok_elim _ _ _ _ hde with ⟨_, rfl⟩ | ⟨a, b, hp, hb, _, rfl⟩
          · exact l5 (by rw [hcf1]; exact hcf)
          · exact l5 (by rw [hcf1]; exact hcf)

/-- With no injected fault, `reallocate` to a capacity that holds the elements returns. -/
theorem Vector.reallocate_total {α : Type} {v : Vector} {h : Heap α} {xs : List α}
    (hH : v.Holds h xs) (n : Nat) (hn : v._size ≤ n)
    (haf : h.allocFaults = []) (hcf : h.ctorFaults = []) :
    ∃ v' h', Vector.reallocate v n h = .ok () (v', h') := by
  unfold Vector.reallocate
  rw [allocate_ok n h haf]
  simp only
  obtain ⟨t', hl⟩ := Vector.moveLoop_total hH n h.blocks.length rfl
    { h with blocks := h.blocks ++ [some (List.replicate n Slot.raw)], allocFaults := [] }
    rfl hcf hn
  rw [hl]
  simp only
  obtain ⟨_, l2, _, _, _⟩ := Vector.moveLoop_ok hH n h.blocks.length rfl _ t' rfl hl
  cases hd : v._data with
  | none => simp [deallocate]
  | some a =>
    obtain ⟨h1, h2, h3, h4⟩ := hH
    rw [hd] at h4
    simp only at h4
    have halt : a < h.blocks.length := by
      by_contra hlt
      rw [List.getElem?_eq_none (by omega)] at h4
      cases h4
    have hb : t'.blocks[a]? = some (some (xs.map Slot.live ++
        List.replicate (v._capacity - v._size) Slot.raw)) := by
      rw [l2, List.getElem?_append_left halt]
      exact h4
    rw [deallocate_ok a v._capacity t' _ hb (by simp; omega)]
    exact ⟨_, _, rfl⟩

theorem fill_last {α : Type} (xs : List α) (x : α) (n : Nat) (hn : xs.length < n) :
    (List.map Slot.live xs ++ List.replicate (n - xs.length) Slot.raw).set xs.length
        (Slot.live x) =
      List.map Slot.live (xs ++ [x]) ++ List.replicate (n - (xs.length + 1)) Slot.raw := by
  have h1 := fill_step (xs ++ [x]) n xs.length x (by simp) hn
  have e1 : List.take xs.length (xs ++ [x]) = xs := by simp
  have e2 : List.take (xs.length + 1) (xs ++ [x]) = xs ++ [x] := by
    rw [List.take_of_length_le]
    simp
  rw [e1, e2] at h1
  exact h1

/-- A returning `push_back` on a Vector holding `xs`: the Vector then holds `xs ++ [x]`, and the
capacity went to `1` (from `0`) or doubled when the Vector was full and is unchanged otherwise. -/
theorem Vector.push_back_ok_elim {α : Type} {v v' : Vector} {h h' : Heap α} {xs : List α}
    (hH : v.Holds h xs) (x : α)
    (hrun : Vector.push_back v x h = .ok () (v', h')) :
    v'.Holds h' (xs ++ [x]) ∧
    v'._capacity = (if v._size = v._capacity then (if v._capacity = 0 then 1 else 2 * v._capacity)
                    else v._capacity) ∧
    (h.allocFaults = [] → h'.allocFaults = []) ∧ (h.ctorFaults = [] → h'.ctorFaults = []) := by
  have hsz := hH.1
  have hle := hH.2.1
  have hcap := hH.2.2.1
  unfold Vector.push_back at hrun
  by_cases hfull : v._size = v._capacity
  · simp only [hfull, if_true] at hrun
    cases hr : Vector.reallocate v (if v._capacity = 0 then 1 else v._capacity * 2 % SIZE_MOD) h with
    | throw e s1 => rw [hr] at hrun; cases hrun
    | ub => rw [hr] at hrun; cases hrun
    | ok r s1 =>
      obtain ⟨v1, h1⟩ := s1
      rw [hr] at hrun
      simp only at hrun
      obtain ⟨r1, r2, r3, r4, r5, r6, r7⟩ := Vector.reallocate_ok_elim hH _ hr
      subst r1
      simp only at hrun
      cases hc : construct_at (some h.blocks.length) v._size x h1 with
      | throw e h2 => rw [hc] at hrun; cases hrun
      | ub => rw [hc] at hrun; cases hrun
      | ok r2' h2 =>
        rw [hc] at hrun
        simp only [Res.ok.injEq, Prod.mk.injEq, true_and] at hrun
        obtain ⟨hv', hh'⟩ := hrun
        subst hh'
        obtain ⟨a, b, ha, hb, hlt, hh2⟩ := construct_at_ok_elim _ _ _ _ _ hc
        simp only [Option.some.injEq] at ha
        subst ha
        rw [r3] at hb
        simp only [Option.some.injEq] at hb
        subst hb
        have hlen : (List.map (Slot.live : α → Slot α) xs ++
            List.replicate ((if v._capacity = 0 then 1 else v._capacity * 2 % SIZE_MOD) -
              v._size) Slot.raw).length
            = (if v._capacity = 0 then 1 else v._capacity * 2 % SIZE_MOD) := by
          simp only [List.length_append, List.length_map, List.length_replicate]
          omega
        rw [hlen] at hlt
        have hnew : (if v._capacity = 0 then 1 else v._capacity * 2 % SIZE_MOD)
            = (if v._capacity = 0 then 1 else 2 * v._capacity) ∧
            (if v._capacity = 0 then 1 else 2 * v._capacity) < SIZE_MOD := by
          by_cases hz : v._capacity = 0
          · simp [hz, SIZE_MOD]
          · simp only [hz, if_false] at hlt ⊢
            unfold SIZE_MOD at hlt hcap ⊢
            omega
        rw [hnew.1] at hlt r2 r3 hh2
        have hmod : (v._size + 1) % SIZE_MOD = v._size + 1 := by
          apply Nat.mod_eq_of_lt
          omega
        rw [hmod, hnew.1] at hv'
        subst hv'
        refine ⟨⟨?_, ?_, ?_, ?_⟩, ?_, ?_, ?_⟩
        · simp [hsz]
        · simp only; omega
        · exact hnew.2
        · simp only
          rw [hh2]
          simp only
          rw [List.getElem?_set_self (by omega)]
          rw [hsz, fill_last xs x _ (by omega)]
        · simp [hfull]
        · intro haf
          rw [hh2]
          simp only
          rw [r6, haf]
          rfl
        · intro hcf
          rw [hh2]
          simp [r7 hcf]
  · simp only [hfull, if_false] at hrun
    cases hc : construct_at v._data v._size x h with
    | throw e h2 => rw [hc] at hrun; cases hrun
    | ub => rw [hc] at hrun; cases hrun
    | ok r2' h2 =>
      rw [hc] at hrun
      simp only [Res.ok.injEq, Prod.mk.injEq, true_and] at hrun
      obtain ⟨hv', hh'⟩ := hrun
      subst hh'
      obtain ⟨a, b, ha, hb, hlt, hh2⟩ := construct_at_ok_elim _ _ _ _ _ hc
      have h4 := hH.2.2.2
      rw [ha] at h4
      simp only at h4
      rw [h4] at hb
      simp only [Option.some.injEq] at hb
      subst hb
      have hmod : (v._size + 1) % SIZE_MOD = v._size + 1 := by
        apply Nat.mod_eq_of_lt
        omega
      rw [hmod] at hv'
      subst hv'
      have halt : a < h.blocks.length := by
        by_contra hge
        rw [List.getElem?_eq_none (by omega)] at h4
        cases h4
      refine ⟨⟨?_, ?_, ?_, ?_⟩, ?_, ?_, ?_⟩
      · simp [hsz]
      · simp only; omega
      · exact hcap
      · simp only [ha]
        rw [hh2]
        simp only
        rw [List.getElem?_set_self halt]
        rw [hsz, fill_last xs x _ (by omega)]
      · simp [hfull]
      · intro haf
        rw [hh2]
        exact haf
      · intro hcf
        rw [hh2]
        simp [hcf]

/-- With no injected fault and no `size_t` wrap-around of the doubled capacity, `push_back`
returns. -/
theorem Vector.push_back_total {α : Type} {v : Vector} {h : Heap α} {xs : List α}
    (hH : v.Holds h xs) (x : α) (haf : h.allocFaults = []) (hcf : h.ctorFaults = [])
    (hnov : v._size = v._capacity → 2 * v._capacity < SIZE_MOD) :
    ∃ v' h', Vector.push_back v x h = .ok () (v', h') := by
  have hsz := hH.1
  have hle := hH.2.1
  have hcap := hH.2.2.1
  unfold Vector.push_back
  by_cases hfull : v._size = v._capacity
  · have hlt2 := hnov hfull
    have hnew : (if v._capacity = 0 then 1 else v._capacity * 2 % SIZE_MOD)
        = (if v._capacity = 0 then 1 else 2 * v._capacity) := by
      by_cases hz : v._capacity = 0
      · simp [hz]
      · simp only [hz, if_false]
        rw [Nat.mul_comm, Nat.mod_eq_of_lt hlt2]
    simp only [hfull, if_true]
    rw [hnew]
    have hgt : v._size < (if v._capacity = 0 then 1 else 2 * v._capacity) := by
      by_cases hz : v._capacity = 0
      · simp only [hz, if_true]; omega
      · simp only [hz, if_false]; omega
    obtain ⟨v1, h1, hr⟩ := Vector.reallocate_total hH
      (if v._capacity = 0 then 1 else 2 * v._capacity) (by omega) haf hcf
    rw [hr]
    simp only
    obtain ⟨r1, r2, r3, r4, r5, r6, r7⟩ := Vector.reallocate_ok_elim hH _ hr
    subst r1
    simp only
    rw [construct_at_ok h.blocks.length v._size x h1 _ r3
      (by simp only [List.length_append, List.length_map, List.length_replicate]; omega)
      (r7 hcf)]
    exact ⟨_, _, rfl⟩
  · simp only [hfull, if_false]
    have hpos : 0 < v._capacity := by omega
    have h4 := hH.2.2.2
    cases hd : v._data with
    | none =>
      rw [hd] at h4
      simp only at h4
      omega
    | some a =>
      rw [hd] at h4
      simp only at h4
      rw [construct_at_ok a v._size x h _ h4
        (by simp only [List.length_append, List.length_map, List.length_replicate]; omega) hcf]
      exact ⟨_, _, rfl⟩

/-- Capacity reached after `k` calls of `push_back` on an empty Vector: `0` for `k = 0`, else the
power of two `c` with `k ≤ c < 2 * k`. -/
theorem Vector.pushAll_ok_elim {α : Type} (ys : List α) :
    ∀ (v v' : Vector) (h h' : Heap α) (xs : List α), v.Holds h xs →
      ((xs.length = 0 ∧ v._capacity = 0) ∨
        ∃ e, v._capacity = 2 ^ e ∧ xs.length ≤ 2 ^ e ∧ 2 ^ e < 2 * xs.length) →
      Vector.pushAll v ys h = .ok () (v', h') →
      v'.Holds h' (xs ++ ys) ∧
      (((xs ++ ys).length = 0 ∧ v'._capacity = 0) ∨
        ∃ e, v'._capacity = 2 ^ e ∧ (xs ++ ys).length ≤ 2 ^ e ∧ 2 ^ e < 2 * (xs ++ ys).length) := by
  induction ys with
  | nil =>
    intro v v' h h' xs hH hc hrun
    simp only [Vector.pushAll, Res.ok.injEq, Prod.mk.injEq, true_and] at hrun
    obtain ⟨rfl, rfl⟩ := hrun
    rw [List.append_nil]
    exact ⟨hH, hc⟩
  | cons y rest ih =>
    intro v v' h h' xs hH hc hrun
    simp only [Vector.pushAll] at hrun
    cases hp : Vector.push_back v y h with
    | throw e s1 => rw [hp] at hrun; cases hrun
    | ub => rw [hp] at hrun; cases hrun
    | ok r s1 =>
      obtain ⟨v1, h1⟩ := s1
      rw [hp] at hrun
      simp only at hrun
      obtain ⟨hH1, hcap1, _, _⟩ := Vector.push_back_ok_elim hH y hp
      have hsz := hH.1
      have hc1 : ((xs ++ [y]).length = 0 ∧ v1._capacity = 0) ∨
          ∃ e, v1._capacity = 2 ^ e ∧ (xs ++ [y]).length ≤ 2 ^ e ∧
            2 ^ e < 2 * (xs ++ [y]).length := by
        right
        simp only [List.length_append, List.length_singleton]
        rcases hc with ⟨hz, hcz⟩ | ⟨e, he, hle, hlt⟩
        · refine ⟨0, ?_, ?_, ?_⟩
          · rw [hcap1, hsz, hz, hcz]; simp
          · rw [hz]; simp
          · rw [hz]; simp
        · by_cases hfull : v._size = v._capacity
          · refine ⟨e + 1, ?_, ?_, ?_⟩
            · rw [hcap1]
              have hne : v._capacity ≠ 0 := by
                rw [he]; exact Nat.pos_iff_ne_zero.mp (Nat.pow_pos (by decide))
              simp only [hfull, if_true, hne, if_false]
              rw [he, pow_succ]; omega
            · rw [pow_succ]; omega
            · rw [pow_succ]
              have : xs.length = 2 ^ e := by omega
              omega
          · refine ⟨e, ?_, ?_, ?_⟩
            · rw [hcap1]; simp only [hfull, if_false]; exact he
            · have := hH.2.1; omega
            · omega
      have := ih v1 v' h1 h' (xs ++ [y]) hH1 hc1 hrun
      simpa using this

theorem Vector.pushAll_total {α : Type} (ys : List α) :
    ∀ (v : Vector) (h : Heap α) (xs : List α), v.Holds h xs →
      h.allocFaults = [] → h.ctorFaults = [] →
      xs.length + ys.length ≤ 2 ^ 63 →
      ∃ v' h', Vector.pushAll v ys h = .ok () (v', h') := by
  induction ys with
  | nil =>
    intro v h xs _ _ _ _
    exact ⟨v, h, rfl⟩
  | cons y rest ih =>
    intro v h xs hH haf hcf hlen
    simp only [List.length_cons] at hlen
    have hsz := hH.1
    obtain ⟨v1, h1, hp⟩ := Vector.push_back_total hH y haf hcf (by
      intro hfull
      unfold SIZE_MOD
      have : (2 : Nat) ^ 63 = 9223372036854775808 := by norm_num
      omega)
    obtain ⟨hH1, _, haf1, hcf1⟩ := Vector.push_back_ok_elim hH y hp
    obtain ⟨v', h', hrun⟩ := ih v1 h1 (xs ++ [y]) hH1 (haf1 haf) (hcf1 hcf) (by
      simp only [List.length_append, List.length_singleton]; omega)
    refine ⟨v', h', ?_⟩
    simp only [Vector.pushAll, hp]
    exact hrun

theorem Vector.Holds.new {α : Type} (h : Heap α) : Vector.new.Holds h ([] : List α) := by
  simp [Vector.Holds, Vector.new, SIZE_MOD]

theorem Vector.Holds.read {α : Type} {v : Vector} {h : Heap α} {xs : List α}
    (hH : v.Holds h xs) (i : Nat) (hi : i < xs.length) :
    h.read v._data i = some xs[i] :=
  hH.read_old h [] (by simp) i xs[i] (List.getElem?_eq_getElem hi)

theorem Vector.Holds.at_lt {α : Type} {v : Vector} {h : Heap α} {xs : List α}
    (hH : v.Holds h xs) (i : Nat) (hi : i < xs.length) :
    Vector.«at» v i h = .ok xs[i] () := by
  have hsz := hH.1
  unfold Vector.«at»
  rw [if_neg (by omega), hH.read i hi]

theorem Vector.Holds.index_lt {α : Type} {v : Vector} {h : Heap α} {xs : List α}
    (hH : v.Holds h xs) (i : Nat) (hi : i < xs.length) :
    Vector.index v i h = .ok xs[i] () := by
  unfold Vector.index
  rw [hH.read i hi]

/-! ## Claims on `Vector<T>` -/

/-- C1: `push_back(x_1), .., push_back(x_k)` on an empty Vector. Whenever the `k` calls return
(whatever the heap they start in), `size() == k` and `at(i)` and `operator[](i)` give `x_{i+1}`
for every `i < k`; and the calls do return when no allocation or constructor fails and
`k ≤ 2^63` (no `size_t` wrap-around of the doubled capacity). -/
theorem C1_push_back_sequence {α : Type} (xs : List α) (h : Heap α) :
    (∀ v' h', Vector.pushAll Vector.new xs h = .ok () (v', h') →
      v'.size = xs.length ∧
      ∀ (i : Nat) (hi : i < xs.length),
        Vector.«at» v' i h' = .ok xs[i] () ∧ Vector.index v' i h' = .ok xs[i] ()) ∧
    (h.allocFaults = [] → h.ctorFaults = [] → xs.length ≤ 2 ^ 63 →
      ∃ v' h', Vector.pushAll Vector.new xs h = .ok () (v', h')) := by
  constructor
  · intro v' h' hrun
    obtain ⟨hH, _⟩ := Vector.pushAll_ok_elim xs Vector.new v' h h' []
      (Vector.Holds.new h) (Or.inl ⟨rfl, rfl⟩) hrun
    rw [List.nil_append] at hH
    exact ⟨hH.1, fun i hi => ⟨hH.at_lt i hi, hH.index_lt i hi⟩⟩
  · intro haf hcf hlen
    exact Vector.pushAll_total xs Vector.new h [] (Vector.Holds.new h) haf hcf (by simpa using hlen)

/-- Witness of C1: `push_back(10)`, `push_back(20)` on an empty `Vector<int>` return, and leave
size 2 and the elements 10, 20. -/
theorem C1_push_back_sequence_witness :
    ∃ v' h', Vector.pushAll Vector.new [(10 : Int), 20] Heap.empty = .ok () (v', h') ∧
      v'.size = 2 ∧ Vector.«at» v' 0 h' = .ok 10 () ∧ Vector.«at» v' 1 h' = .ok 20 () := by
  obtain ⟨v', h', hrun⟩ :=
    (C1_push_back_sequence [(10 : Int), 20] Heap.empty).2 rfl rfl (by norm_num)
  obtain ⟨hs, hel⟩ := (C1_push_back_sequence [(10 : Int), 20] Heap.empty).1 v' h' hrun
  exact ⟨v', h', hrun, hs, (hel 0 (by decide)).1, (hel 1 (by decide)).1⟩

/-- C2: doubling policy. A returning `push_back` on a Vector that satisfies its invariant sets the
capacity to 1 (from 0) or to twice its value when `size == capacity`, and leaves it unchanged when
`size < capacity`; after `k` returning calls on an empty Vector the capacity is 0 for `k = 0` and
the least power of two `≥ k` otherwise. The calls return when no allocation or constructor fails
and the doubled capacity does not wrap around. -/
theorem C2_capacity_doubling {α : Type} :
    (∀ (v v' : Vector) (h h' : Heap α) (xs : List α) (x : α), v.Holds h xs →
      Vector.push_back v x h = .ok () (v', h') →
      v'.capacity = (if v.size = v.capacity then (if v.capacity = 0 then 1 else 2 * v.capacity)
                     else v.capacity)) ∧
    (∀ (xs : List α) (h h' : Heap α) (v' : Vector),
      Vector.pushAll Vector.new xs h = .ok () (v', h') →
      (xs.length = 0 → v'.capacity = 0) ∧
      (0 < xs.length → ∃ e, v'.capacity = 2 ^ e ∧ xs.length ≤ 2 ^ e ∧
        ∀ e', xs.length ≤ 2 ^ e' → 2 ^ e ≤ 2 ^ e')) ∧
    (∀ (v : Vector) (h : Heap α) (xs : List α) (x : α), v.Holds h xs →
      h.allocFaults = [] → h.ctorFaults = [] →
      (v.size = v.capacity → 2 * v.capacity < SIZE_MOD) →
      ∃ v' h', Vector.push_back v x h = .ok () (v', h')) ∧
    (∀ (xs : List α) (h : Heap α), h.allocFaults = [] → h.ctorFaults = [] →
      xs.length ≤ 2 ^ 63 → ∃ v' h', Vector.pushAll Vector.new xs h = .ok () (v', h')) := by
  refine ⟨?_, ?_, ?_, ?_⟩
  · intro v v' h h' xs x hH hrun
    exact (Vector.push_back_ok_elim hH x hrun).2.1
  · intro xs h h' v' hrun
    obtain ⟨_, hc⟩ := Vector.pushAll_ok_elim xs Vector.new v' h h' []
      (Vector.Holds.new h) (Or.inl ⟨rfl, rfl⟩) hrun
    rw [List.nil_append] at hc
    constructor
    · intro hz
      rcases hc with ⟨_, hc0⟩ | ⟨e, _, _, hlt⟩
      · exact hc0
      · omega
    · intro hpos
      rcases hc with ⟨hz, _⟩ | ⟨e, he, hle, hlt⟩
      · omega
      · refine ⟨e, he, hle, ?_⟩
        intro e' hle'
        by_contra hnot
        have hee : e' < e := by
          by_contra hge
          exact hnot (Nat.pow_le_pow_right (by decide) (by omega))
        have h2 : 2 ^ (e' + 1) ≤ 2 ^ e := Nat.pow_le_pow_right (by decide) hee
        rw [pow_succ] at h2
        omega
  · intro v h xs x hH haf hcf hnov
    exact Vector.push_back_total hH x haf hcf hnov
  · intro xs h haf hcf hlen
    exact Vector.pushAll_total xs Vector.new h [] (Vector.Holds.new h) haf hcf (by simpa using hlen)

/-- Witness of C2: five calls of `push_back` on an empty `Vector<int>` return with capacity
`8 = 2^3`, the least power of two that is at least 5; and `push_back` on the full Vector of size
and capacity 4 returns with capacity 8. -/
theorem C2_capacity_doubling_witness :
    (∃ v' h', Vector.pushAll Vector.new [(1 : Int), 2, 3, 4, 5] Heap.empty = .ok () (v', h') ∧
      ∃ e, v'.capacity = 2 ^ e ∧ 5 ≤ 2 ^ e ∧ ∀ e', 5 ≤ 2 ^ e' → 2 ^ e ≤ 2 ^ e') ∧
    (∃ v' h', Vector.push_back ⟨some 2, 4, 4⟩ (5 : Int)
          ⟨[none, none, some [.live 1, .live 2, .live 3, .live 4]], [], [], []⟩ =
            .ok () (v', h') ∧ v'.capacity = 8) := by
  have hH : Vector.Holds ⟨some 2, 4, 4⟩
      (⟨[none, none, some [.live 1, .live 2, .live 3, .live 4]], [], [], []⟩ : Heap Int)
      [1, 2, 3, 4] := by
    simp [Vector.Holds, SIZE_MOD]
  constructor
  · obtain ⟨v', h', hrun⟩ :=
      (@C2_capacity_doubling Int).2.2.2 [1, 2, 3, 4, 5] Heap.empty rfl rfl (by norm_num)
    exact ⟨v', h', hrun,
      ((@C2_capacity_doubling Int).2.1 [1, 2, 3, 4, 5] Heap.empty h' v' hrun).2 (by decide)⟩
  · obtain ⟨v', h', hp⟩ := (@C2_capacity_doubling Int).2.2.1 ⟨some 2, 4, 4⟩ _ [1, 2, 3, 4] 5 hH
      rfl rfl (by simp [Vector.size, Vector.capacity, SIZE_MOD])
    refine ⟨v', h', hp, ?_⟩
    have := (@C2_capacity_doubling Int).1 ⟨some 2, 4, 4⟩ v' _ h' [1, 2, 3, 4] 5 hH hp
    simpa [Vector.size, Vector.capacity] using this

/-- C3 on the code: copying the `Vector<int>` that holds `[10]` (copy construction, and copy
assignment to a distinct empty Vector) gives a Vector of the same size 1 and capacity 1 whose
element 0 is the value-initialised `0`, while the source still holds `10`. -/
theorem C3_copy_is_value_initialised :
    (Vector.copyCtor (⟨some 0, 1, 1⟩ : Vector) (⟨[some [.live (10 : Int)]], [], [], []⟩ : Heap Int)
      = .ok ⟨some 1, 1, 1⟩ ⟨[some [.live 10], some [.live 0]], [], [], []⟩) ∧
    Vector.«at» ⟨some 0, 1, 1⟩ 0 (⟨[some [.live 10], some [.live 0]], [], [], []⟩ : Heap Int)
      = .ok 10 () ∧
    Vector.«at» ⟨some 1, 1, 1⟩ 0 (⟨[some [.live 10], some [.live 0]], [], [], []⟩ : Heap Int)
      = .ok 0 () ∧
    (∃ w', Vector.copyAssign 1 0
        (⟨fun a => if a = 0 then ⟨some 0, 1, 1⟩ else Vector.new,
          ⟨[some [.live (10 : Int)]], [], [], []⟩⟩ : World Int) = .ok () w' ∧
      w'.objs 1 = ⟨some 1, 1, 1⟩ ∧ w'.objs 0 = ⟨some 0, 1, 1⟩ ∧
      Vector.«at» (w'.objs 1) 0 w'.heap = .ok 0 () ∧
      Vector.«at» (w'.objs 0) 0 w'.heap = .ok 10 ()) := by
  refine ⟨by decide, by decide, by decide, ?_⟩
  refine ⟨_, rfl, ?_, ?_, ?_, ?_⟩ <;> decide

/-- C6: `at(index)` throws `std::out_of_range` exactly when `index >= size()`, and the text of the
exception contains the decimal index and the decimal size; when `index < size()` on a Vector
holding `xs` it returns `xs[index]`. `at` is a function of the Vector and the heap that returns no
new state: it changes nothing. In particular `at(size())` and `at(size() + 1)` throw. -/
theorem C6_at_checks_bounds {α : Type} (v : Vector) (h : Heap α) (index : Nat) :
    (index ≥ v.size ↔
      Vector.«at» v index h = .throw (.out_of_range (Vector.atMessage index v.size)) ()) ∧
    (index ≥ v.size ↔ ∃ e, Vector.«at» v index h = .throw e ()) ∧
    (∃ pre mid, Vector.atMessage index v.size =
      pre ++ toString index ++ mid ++ toString v.size) ∧
    (∀ (xs : List α), v.Holds h xs → ∀ (hi : index < xs.length),
      index < v.size ∧ Vector.«at» v index h = .ok xs[index] ()) ∧
    Vector.«at» v v.size h =
      .throw (.out_of_range (Vector.atMessage v.size v.size)) () ∧
    Vector.«at» v (v.size + 1) h =
      .throw (.out_of_range (Vector.atMessage (v.size + 1) v.size)) () := by
  have hthrow : ∀ i, i ≥ v._size →
      Vector.«at» v i h = .throw (.out_of_range (Vector.atMessage i v._size)) () := by
    intro i hi
    simp [Vector.«at», hi]
  have hlt : ∀ e, index < v._size → Vector.«at» v index h ≠ .throw e () := by
    intro e hi hrun
    unfold Vector.«at» at hrun
    rw [if_neg (by omega)] at hrun
    split at hrun <;> cases hrun
  refine ⟨⟨hthrow index, ?_⟩, ⟨fun hi => ⟨_, hthrow index hi⟩, ?_⟩, ⟨_, _, rfl⟩, ?_,
    hthrow _ (le_refl _), hthrow _ (Nat.le_succ _)⟩
  · intro hrun
    by_contra hi
    exact hlt _ (by simp only [Vector.size] at hi; omega) hrun
  · rintro ⟨e, hrun⟩
    by_contra hi
    exact hlt _ (by simp only [Vector.size] at hi; omega) hrun
  · intro xs hH hi
    exact ⟨by have := hH.1; simp only [Vector.size]; omega, hH.at_lt index hi⟩

/-- Witness of C6: on the `Vector<int>` holding `[10, 20]`, `at(1)` returns 20. -/
theorem C6_at_checks_bounds_witness :
    1 < (⟨some 0, 2, 2⟩ : Vector).size ∧
    Vector.«at» ⟨some 0, 2, 2⟩ 1 (⟨[some [.live (10 : Int), .live 20]], [], [], []⟩ : Heap Int)
      = .ok 20 () :=
  (C6_at_checks_bounds ⟨some 0, 2, 2⟩ ⟨[some [.live (10 : Int), .live 20]], [], [], []⟩ 1).2.2.2.1
    [10, 20] (by simp [Vector.Holds, SIZE_MOD]) (by decide)

/-- C7: `pop_back()` on a Vector with `size() == 0` throws `std::out_of_range` and leaves the
Vector (size 0, capacity, data pointer) and the heap as they were. -/
theorem C7_pop_back_empty {α : Type} (v : Vector) (h : Heap α) (hempty : v.size = 0) :
    Vector.pop_back v h = .throw (.out_of_range "pop_back() on empty Vector") (v, h) := by
  simp only [Vector.size] at hempty
  simp [Vector.pop_back, hempty]

/-- Witness of C7: an empty Vector with capacity 4. -/
theorem C7_pop_back_empty_witness :
    Vector.pop_back ⟨some 0, 0, 4⟩
        (⟨[some [.raw, .raw, .raw, .raw]], [], [], []⟩ : Heap Int) =
      .throw (.out_of_range "pop_back() on empty Vector")
        (⟨some 0, 0, 4⟩, ⟨[some [.raw, .raw, .raw, .raw]], [], [], []⟩) :=
  C7_pop_back_empty ⟨some 0, 0, 4⟩ ⟨[some [.raw, .raw, .raw, .raw]], [], [], []⟩ rfl

/-! ## Lemmas on `clear`, `~Vector` and the assignment operators -/

theorem list_set_same {β : Type} (B : List β) (a : Nat) (x : β) (h : B[a]? = some x) :
    B = B.set a x := by
  apply List.ext_getElem?
  intro i
  rw [List.getElem?_set]
  split
  · rename_i hia
    subst hia
    split
    · exact h
    · rename_i hlt
      rw [List.getElem?_eq_none (by omega)]
  · rfl

theorem drain_step {α : Type} (xs : List α) (m j : Nat) (hj : j < xs.length) :
    (List.replicate j Slot.raw ++ List.map Slot.live (xs.drop j) ++
        List.replicate m (Slot.raw : Slot α)).set j Slot.raw =
      List.replicate (j + 1) Slot.raw ++ List.map Slot.live (xs.drop (j + 1)) ++
        List.replicate m Slot.raw := by
  have hd : xs.drop j = xs[j] :: xs.drop (j + 1) := List.drop_eq_getElem_cons hj
  rw [hd, List.append_assoc, List.set_append]
  simp only [List.length_replicate, lt_self_iff_false, if_false, Nat.sub_self, List.map_cons,
    List.cons_append, List.set_cons_zero]
  rw [List.replicate_succ', List.append_assoc, List.append_assoc]
  rfl

theorem drain_get {α : Type} (xs : List α) (m j : Nat) (hj : j < xs.length) :
    (List.replicate j Slot.raw ++ List.map Slot.live (xs.drop j) ++
        List.replicate m (Slot.raw : Slot α))[j]? = some (Slot.live xs[j]) := by
  have hd : xs.drop j = xs[j] :: xs.drop (j + 1) := List.drop_eq_getElem_cons hj
  rw [hd, List.append_assoc, List.getElem?_append_right (by simp)]
  simp only [List.length_replicate, Nat.sub_self, List.map_cons, List.cons_append,
    List.getElem?_cons_zero]

/-- The destroy loop of `clear` and of `~Vector` on a Vector holding `xs` in block `a`: it
returns, every slot of the block is raw afterwards, each index below `size` is logged once. -/
theorem Vector.destroyLoop_ok {α : Type} {v : Vector} {h : Heap α} {xs : List α}
    (hH : v.Holds h xs) (a : Nat) (ha : v._data = some a) :
    ∃ h', forLoop (fun i h1 => destroy_at v._data i h1) v._size 0 h = .ok () h' ∧
      h'.blocks = h.blocks.set a (some (List.replicate v._capacity Slot.raw)) ∧
      h'.allocFaults = h.allocFaults ∧ h'.ctorFaults = h.ctorFaults ∧
      h'.destroyed = ((List.range v._size).reverse.map fun i => (a, i)) ++ h.destroyed := by
  obtain ⟨hsz, hle, hcap, h4⟩ := hH
  rw [ha] at h4
  simp only at h4
  have halt : a < h.blocks.length := by
    by_contra hge
    rw [List.getElem?_eq_none (by omega)] at h4
    cases h4
  have key := forLoop_total (fun i h1 => destroy_at v._data i h1)
    (fun j (s : Heap α) =>
      s.blocks = h.blocks.set a (some (List.replicate j Slot.raw ++
        List.map Slot.live (xs.drop j) ++ List.replicate (v._capacity - v._size) Slot.raw)) ∧
      s.allocFaults = h.allocFaults ∧ s.ctorFaults = h.ctorFaults ∧
      s.destroyed = ((List.range j).reverse.map fun i => (a, i)) ++ h.destroyed)
    v._size 0 h ?_ ?_
  · obtain ⟨h', hrun, k1, k2, k3, k4⟩ := key
    simp only [zero_add] at k1 k4
    refine ⟨h', hrun, ?_, k2, k3, k4⟩
    rw [k1, hsz, List.drop_length]
    simp only [List.map_nil, List.append_nil]
    rw [← List.replicate_add]
    congr 3
    omega
  · intro j s _ hj hinv
    obtain ⟨i1, i2, i3, i4⟩ := hinv
    have hjx : j < xs.length := by omega
    have hb : s.blocks[a]? = some (some (List.replicate j Slot.raw ++
        List.map Slot.live (xs.drop j) ++ List.replicate (v._capacity - v._size) Slot.raw)) := by
      rw [i1, List.getElem?_set_self halt]
    refine ⟨{ s with
        blocks := s.blocks.set a (some ((List.replicate j Slot.raw ++
          List.map Slot.live (xs.drop j) ++
          List.replicate (v._capacity - v._size) Slot.raw).set j Slot.raw)),
        destroyed := (a, j) :: s.destroyed }, ?_, ?_, i2, i3, ?_⟩
    · simp only [ha]
      exact destroy_at_ok a j xs[j] s _ hb (drain_get xs _ j hjx)
    · simp only
      rw [i1, List.set_set, drain_step xs _ j hjx]
    · simp only
      rw [i4, List.range_succ]
      simp
  · refine ⟨?_, rfl, rfl, by simp⟩
    simp only [List.replicate_zero, List.nil_append, List.drop_zero]
    exact list_set_same _ a _ h4

/-- On a Vector holding `xs`, `clear()` returns: size 0, same data pointer and capacity, the block
holds no object any more, and every other block is as before. -/
theorem Vector.clear_ok {α : Type} {v : Vector} {h : Heap α} {xs : List α}
    (hH : v.Holds h xs) :
    ∃ h', Vector.clear v h = .ok () (⟨v._data, 0, v._capacity⟩, h') ∧
      Vector.Holds ⟨v._data, 0, v._capacity⟩ h' ([] : List α) ∧
      (∀ b, v._data ≠ some b → h'.blocks[b]? = h.blocks[b]?) ∧
      h'.blocks.length = h.blocks.length ∧
      h'.allocFaults = h.allocFaults ∧ h'.ctorFaults = h.ctorFaults := by
  have hsz := hH.1
  have hle := hH.2.1
  have hcap := hH.2.2.1
  have h4 := hH.2.2.2
  cases hd : v._data with
  | none =>
    rw [hd] at h4
    simp only at h4
    have hz : v._size = 0 := by omega
    refine ⟨h, ?_, ?_, fun _ _ => rfl, rfl, rfl, rfl⟩
    · simp [Vector.clear, hz, forLoop, hd]
    · simp [Vector.Holds, h4, SIZE_MOD]
  | some a =>
    obtain ⟨h', hrun, k1, k2, k3, _⟩ := Vector.destroyLoop_ok hH a hd
    rw [hd] at h4
    simp only at h4
    have halt : a < h.blocks.length := by
      by_contra hge
      rw [List.getElem?_eq_none (by omega)] at h4
      cases h4
    refine ⟨h', ?_, ?_, ?_, ?_, k2, k3⟩
    · rw [hd] at hrun
      simp only [Vector.clear, hd, hrun]
    · refine ⟨rfl, Nat.zero_le _, hcap, ?_⟩
      simp only
      rw [k1, List.getElem?_set_self halt]
      simp
    · intro b hb
      rw [k1, List.getElem?_set_ne]
      intro hab
      exact hb (by rw [hab])
    · rw [k1]; simp

/-- Move assignment between two distinct Vectors that satisfy their invariants and do not share a
block returns, and the block of the source is not touched. -/
theorem Vector.moveAssign_ok {α : Type} (self other : Nat) (w : World α) (xs ys : List α)
    (hne : self ≠ other) (hS : (w.objs self).Holds w.heap xs)
    (hO : (w.objs other).Holds w.heap ys)
    (hdisj : (w.objs self)._data = none ∨ (w.objs self)._data ≠ (w.objs other)._data) :
    ∃ h', Vector.moveAssign self other w =
        .ok () ⟨Function.update
                  (Function.update w.objs self
                    ⟨(w.objs other)._data, (w.objs other)._size, (w.objs other)._capacity⟩)
                  other ⟨none, (0 : Nat), (0 : Nat)⟩, h'⟩ ∧
      (w.objs other).Holds h' ys := by
  obtain ⟨h1, hclear, hH1, hframe, hlen, _, _⟩ := Vector.clear_ok hS
  unfold Vector.moveAssign
  rw [if_pos hne, hclear]
  simp only
  have hO4 := hO.2.2.2
  cases hd : (w.objs self)._data with
  | none =>
    refine ⟨h1, by simp [deallocate], hO.1, hO.2.1, hO.2.2.1, ?_⟩
    cases hdo : (w.objs other)._data with
    | none => rw [hdo] at hO4; simpa using hO4
    | some b =>
      rw [hdo] at hO4
      simp only at hO4 ⊢
      rw [hframe b (by rw [hd]; simp)]
      exact hO4
  | some a =>
    have hb1 := hH1.2.2.2
    rw [hd] at hb1
    simp only [Nat.sub_zero, List.map_nil, List.nil_append] at hb1
    rw [deallocate_ok a (w.objs self)._capacity h1 _ hb1 (by simp)]
    refine ⟨_, rfl, hO.1, hO.2.1, hO.2.2.1, ?_⟩
    cases hdo : (w.objs other)._data with
    | none => rw [hdo] at hO4; simpa using hO4
    | some b =>
      rw [hdo] at hO4
      simp only at hO4 ⊢
      have hab : a ≠ b := by
        rcases hdisj with hn | hn
        · rw [hd] at hn; cases hn
        · intro hab
          apply hn
          rw [hd, hdo, hab]
      rw [List.getElem?_set_ne hab, hframe b (by rw [hd]; simpa using hab)]
      exact hO4

/-! ## Claims on copying and moving a Vector -/

/-- C5: move construction and move assignment to a distinct target. The destination gets the data
pointer (the same block), the size and the capacity of the source, the source is left with a null
data pointer, size 0 and capacity 0, and a source that held the elements `ys` leaves the destination
holding `ys`. No other Vector object changes. Move assignment returns whenever the two Vectors
satisfy their invariants and own different blocks. -/
theorem C5_move_transfers_storage {α : Type} :
    (∀ (other : Vector) (h : Heap α) (ys : List α),
      (Vector.moveCtor other).1 = other ∧ (Vector.moveCtor other).2 = ⟨none, 0, 0⟩ ∧
      (other.Holds h ys → (Vector.moveCtor other).1.Holds h ys)) ∧
    (∀ (self other : Nat) (w w' : World α), self ≠ other →
      Vector.moveAssign self other w = .ok () w' →
      w'.objs self = w.objs other ∧ w'.objs other = ⟨none, 0, 0⟩ ∧
      ∀ c, c ≠ self → c ≠ other → w'.objs c = w.objs c) ∧
    (∀ (self other : Nat) (w : World α) (xs ys : List α), self ≠ other →
      (w.objs self).Holds w.heap xs → (w.objs other).Holds w.heap ys →
      ((w.objs self)._data = none ∨ (w.objs self)._data ≠ (w.objs other)._data) →
      ∃ w', Vector.moveAssign self other w = .ok () w' ∧
        (w'.objs self).Holds w'.heap ys ∧
        (w'.objs self)._data = (w.objs other)._data ∧
        (w'.objs self).size = (w.objs other).size ∧
        (w'.objs self).capacity = (w.objs other).capacity ∧
        (w'.objs other)._data = none ∧ (w'.objs other).size = 0 ∧
        (w'.objs other).capacity = 0) := by
  refine ⟨?_, ?_, ?_⟩
  · intro other h ys
    exact ⟨rfl, rfl, fun hH => hH⟩
  · intro self other w w' hne hrun
    unfold Vector.moveAssign at hrun
    rw [if_pos hne] at hrun
    cases hc : Vector.clear (w.objs self) w.heap with
    | throw e s1 => rw [hc] at hrun; cases hrun
    | ub => rw [hc] at hrun; cases hrun
    | ok r s1 =>
      obtain ⟨v1, h1⟩ := s1
      rw [hc] at hrun
      simp only at hrun
      cases hde : deallocate v1._data v1._capacity h1 with
      | throw e h2 => rw [hde] at hrun; cases hrun
      | ub => rw [hde] at hrun; cases hrun
      | ok r2 h2 =>
        rw [hde] at hrun
        simp only [Res.ok.injEq, true_and] at hrun
        subst hrun
        refine ⟨?_, ?_, ?_⟩
        · simp [Function.update, hne]
        · simp [Function.update]
        · intro c hc1 hc2
          simp [Function.update, hc1, hc2]
  · intro self other w xs ys hne hS hO hdisj
    obtain ⟨h', hrun, hH'⟩ := Vector.moveAssign_ok self other w xs ys hne hS hO hdisj
    refine ⟨_, hrun, ?_⟩
    simp only [Vector.size, Vector.capacity, Function.update_same,
      Function.update_noteq hne, and_self, and_true]
    exact hH'

/-- Witness of C5: the empty Vector at address 0 is move-assigned the Vector at address 1, which
holds `[10, 20]` in block 0. -/
theorem C5_move_transfers_storage_witness :
    ∃ w', Vector.moveAssign 0 1
        (⟨fun a => if a = 1 then ⟨some 0, 2, 2⟩ else Vector.new,
          ⟨[some [.live (10 : Int), .live 20]], [], [], []⟩⟩ : World Int) = .ok () w' ∧
      (w'.objs 0).Holds w'.heap [10, 20] ∧ (w'.objs 0)._data = some 0 ∧
      (w'.objs 0).size = 2 ∧ (w'.objs 0).capacity = 2 ∧
      (w'.objs 1)._data = none ∧ (w'.objs 1).size = 0 ∧ (w'.objs 1).capacity = 0 :=
  (@C5_move_transfers_storage Int).2.2 0 1
    ⟨fun a => if a = 1 then ⟨some 0, 2, 2⟩ else Vector.new,
     ⟨[some [.live (10 : Int), .live 20]], [], [], []⟩⟩ [] [10, 20] (by decide)
    (by simp [Vector.Holds, Vector.new, SIZE_MOD])
    (by simp [Vector.Holds, SIZE_MOD])
    (Or.inl rfl)

theorem forLoop_not_throw {σ : Type} (body : Nat → σ → Res σ Unit)
    (hbody : ∀ j t e t1, body j t ≠ .throw e t1) :
    ∀ (k i : Nat) (s s' : σ) (e : Exn), forLoop body k i s ≠ .throw e s' := by
  intro k
  induction k with
  | zero =>
    intro i s s' e hrun
    simp [forLoop] at hrun
  | succ k ih =>
    intro i s s' e hrun
    simp only [forLoop] at hrun
    cases hb : body i s with
    | ok r s1 => rw [hb] at hrun; exact ih _ _ _ _ hrun
    | throw e1 s1 => exact hbody _ _ _ _ hb
    | ub => rw [hb] at hrun; cases hrun

theorem Vector.destructor_not_throw {α : Type} (v : Vector) (h h' : Heap α) (e : Exn) :
    Vector.destructor v h ≠ .throw e h' := by
  intro hrun
  unfold Vector.destructor at hrun
  cases hl : forLoop (fun i h1 => destroy_at v._data i h1) v._size 0 h with
  | ok r h1 =>
    rw [hl] at hrun
    exact deallocate_not_throw _ _ _ _ _ hrun
  | throw e1 h1 =>
    exact forLoop_not_throw _ (fun j t e t1 => destroy_at_not_throw _ _ _ _ _) _ _ _ _ _ hl
  | ub => rw [hl] at hrun; cases hrun

/-- A throwing copy constructor leaves every block that existed before the call, and the log of
destroyed objects, as they were. -/
theorem Vector.copyCtor_throw_frame {α : Type} [Inhabited α] (other : Vector) (h h' : Heap α)
    (e : Exn) (hrun : Vector.copyCtor other h = .throw e h') :
    (∀ a, a < h.blocks.length → h'.blocks[a]? = h.blocks[a]?) ∧ h'.destroyed = h.destroyed := by
  unfold Vector.copyCtor at hrun
  cases ha : allocate other._capacity h with
  | throw e1 h1 =>
    rw [ha] at hrun
    simp only [Res.throw.injEq] at hrun
    obtain ⟨_, rfl⟩ := hrun
    obtain ⟨_, rfl⟩ := allocate_throw_elim _ _ _ _ ha
    exact ⟨fun _ _ => rfl, rfl⟩
  | ub => rw [ha] at hrun; cases hrun
  | ok p h1 =>
    rw [ha] at hrun
    simp only at hrun
    obtain ⟨hp, hh1⟩ := allocate_ok_elim _ _ _ _ ha
    cases hl : forLoop (fun i h2 => construct_at (some p) i (default : α) h2)
        other._size 0 h1 with
    | ok r h2 => rw [hl] at hrun; cases hrun
    | ub => rw [hl] at hrun; cases hrun
    | throw e2 h2 =>
      rw [hl] at hrun
      simp only [Res.throw.injEq] at hrun
      obtain ⟨_, rfl⟩ := hrun
      have key := forLoop_throw_inv (fun i h2 => construct_at (some p) i (default : α) h2)
        (fun (s : Heap α) =>
          (∀ a, a < h.blocks.length → s.blocks[a]? = h.blocks[a]?) ∧ s.destroyed = h.destroyed)
        ?_ ?_ other._size 0 h1 h2 e2 ?_ hl
      · exact key
      · intro j t t1 ht hbody
        obtain ⟨a, b, hpa, _, _, rfl⟩ := construct_at_ok_elim _ _ _ _ _ hbody
        simp only [Option.some.injEq] at hpa
        refine ⟨fun c hc => ?_, ht.2⟩
        simp only
        rw [List.getElem?_set_ne (by omega)]
        exact ht.1 c hc
      · intro j t e3 t1 ht hbody
        obtain ⟨_, rfl⟩ := construct_at_throw_elim _ _ _ _ _ _ hbody
        exact ht
      · rw [hh1]
        refine ⟨fun c hc => ?_, rfl⟩
        simp only
        rw [List.getElem?_append_left hc]

theorem Vector.Holds.frame {α : Type} {v : Vector} {h h' : Heap α} {xs : List α}
    (hH : v.Holds h xs)
    (hframe : ∀ a, a < h.blocks.length → h'.blocks[a]? = h.blocks[a]?) :
    v.Holds h' xs := by
  obtain ⟨h1, h2, h3, h4⟩ := hH
  refine ⟨h1, h2, h3, ?_⟩
  cases hd : v._data with
  | none => rw [hd] at h4; exact h4
  | some a =>
    rw [hd] at h4
    simp only at h4 ⊢
    have halt : a < h.blocks.length := by
      by_contra hge
      rw [List.getElem?_eq_none (by omega)] at h4
      cases h4
    rw [hframe a halt]
    exact h4

/-- The value-initialising loop of the copy constructor when the constructor of element `j`
throws: the loop throws. -/
theorem ctorLoop_throws {α : Type} (p : Nat) (d : α) :
    ∀ (j i k : Nat) (s : Heap α) (blk : List (Slot α)) (rest : List Bool),
      s.blocks[p]? = some (some blk) → i + j < blk.length →
      s.ctorFaults = List.replicate j false ++ true :: rest → j < k →
      ∃ s', forLoop (fun i h2 => construct_at (some p) i d h2) k i s
        = .throw .ctor_failure s' := by
  intro j
  induction j with
  | zero =>
    intro i k s blk rest hb hi hf hk
    obtain ⟨k', rfl⟩ : ∃ k', k = k' + 1 := ⟨k - 1, by omega⟩
    simp only [List.replicate_zero, List.nil_append] at hf
    refine ⟨{ s with ctorFaults := rest }, ?_⟩
    simp only [forLoop, construct_at, Heap.block_some s p blk hb]
    rw [if_pos (by omega), hf]
  | succ j ih =>
    intro i k s blk rest hb hi hf hk
    obtain ⟨k', rfl⟩ : ∃ k', k = k' + 1 := ⟨k - 1, by omega⟩
    rw [List.replicate_succ, List.cons_append] at hf
    have hplt : p < s.blocks.length := by
      by_contra hge
      rw [List.getElem?_eq_none (by omega)] at hb
      cases hb
    obtain ⟨s', hs'⟩ := ih (i + 1) k'
      { s with blocks := s.blocks.set p (some (blk.set i (Slot.live d))),
               ctorFaults := List.replicate j false ++ true :: rest }
      (blk.set i (Slot.live d)) rest
      (by simp only; rw [List.getElem?_set_self hplt])
      (by simp only [List.length_set]; omega) rfl (by omega)
    refine ⟨s', ?_⟩
    simp only [forLoop, construct_at, Heap.block_some s p blk hb]
    rw [if_pos (by omega), hf]
    simp only [List.tail_cons]
    exact hs'

/-- C4: strong exception safety of copy assignment. Whenever `operator=(const Vector&)` throws,
no Vector object has changed (the target keeps its data pointer, size and capacity), every block
that existed before the call and the log of destroyed objects are as before, so a target that held
`xs` still holds `xs`. The failure is signalled: on distinct objects, a failing allocation makes
the assignment throw `bad_alloc`, and a constructor failing at element `j` (after `j` successful
constructions, `j < size ≤ capacity` of the source) makes it throw the constructor's exception. -/
theorem C4_copy_assign_strong_exception_safety {α : Type} [Inhabited α] (self other : Nat)
    (w : World α) :
    (∀ e w', Vector.copyAssign self other w = .throw e w' →
      w'.objs = w.objs ∧
      (∀ a, a < w.heap.blocks.length → w'.heap.blocks[a]? = w.heap.blocks[a]?) ∧
      w'.heap.destroyed = w.heap.destroyed ∧
      ∀ xs, (w.objs self).Holds w.heap xs → (w'.objs self).Holds w'.heap xs) ∧
    (self ≠ other → ∀ rest, w.heap.allocFaults = true :: rest →
      ∃ w', Vector.copyAssign self other w = .throw .bad_alloc w') ∧
    (self ≠ other → ∀ j rest, w.heap.allocFaults.head? ≠ some true →
      w.heap.ctorFaults = List.replicate j false ++ true :: rest →
      j < (w.objs other).size → (w.objs other).size ≤ (w.objs other).capacity →
      ∃ w', Vector.copyAssign self other w = .throw .ctor_failure w') := by
  refine ⟨?_, ?_, ?_⟩
  · intro e w' hrun
    unfold Vector.copyAssign at hrun
    by_cases hne : self = other
    · simp [hne] at hrun
    · rw [if_pos hne] at hrun
      cases hc : Vector.copyCtor (w.objs other) w.heap with
      | ok temp h1 =>
        rw [hc] at hrun
        simp only at hrun
        cases hd : Vector.destructor (Vector.swap (w.objs self) temp).2 h1 with
        | ok r h2 => rw [hd] at hrun; cases hrun
        | throw e2 h2 => exact absurd hd (Vector.destructor_not_throw _ _ _ _)
        | ub => rw [hd] at hrun; cases hrun
      | ub => rw [hc] at hrun; cases hrun
      | throw e1 h1 =>
        rw [hc] at hrun
        simp only [Res.throw.injEq] at hrun
        obtain ⟨_, rfl⟩ := hrun
        obtain ⟨hframe, hlog⟩ := Vector.copyCtor_throw_frame _ _ _ _ hc
        exact ⟨rfl, hframe, hlog, fun xs hH => hH.frame hframe⟩
  · intro hne rest hf
    refine ⟨⟨w.objs, { w.heap with allocFaults := rest }⟩, ?_⟩
    simp [Vector.copyAssign, hne, Vector.copyCtor, allocate, hf]
  · intro hne j rest haf hcf hj hle
    simp only [Vector.size, Vector.capacity] at hj hle
    have halloc : allocate (w.objs other)._capacity w.heap = .ok w.heap.blocks.length
        { w.heap with
          blocks := w.heap.blocks ++ [some (List.replicate (w.objs other)._capacity Slot.raw)],
          allocFaults := w.heap.allocFaults.tail } := by
      unfold allocate
      split
      · rename_i r hr
        rw [hr] at haf
        simp at haf
      · rfl
    obtain ⟨s', hs'⟩ := ctorLoop_throws w.heap.blocks.length (default : α) j 0
      (w.objs other)._size
      { w.heap with
          blocks := w.heap.blocks ++ [some (List.replicate (w.objs other)._capacity Slot.raw)],
          allocFaults := w.heap.allocFaults.tail }
      (List.replicate (w.objs other)._capacity Slot.raw) rest
      (by simp) (by simp only [List.length_replicate]; omega) hcf hj
    refine ⟨⟨w.objs, s'⟩, ?_⟩
    simp only [Vector.copyAssign, if_pos hne, Vector.copyCtor, halloc, hs']

/-- Witness of C4: the Vector at address 0 holds `[7]`, the Vector at address 1 holds `[10, 20]`,
and the constructor of element 1 of the copy throws: `v0 = v1` throws, and `v0` still holds
`[7]` in its block. -/
theorem C4_copy_assign_strong_exception_safety_witness :
    ∃ w', Vector.copyAssign 0 1
        (⟨fun a => if a = 0 then ⟨some 0, 1, 1⟩ else ⟨some 1, 2, 2⟩,
          ⟨[some [.live (7 : Int)], some [.live 10, .live 20]], [], [false, true], []⟩⟩ :
          World Int) = .throw .ctor_failure w' ∧
      w'.objs 0 = ⟨some 0, 1, 1⟩ ∧ (w'.objs 0).Holds w'.heap [7] := by
  obtain ⟨w', hrun⟩ := (C4_copy_assign_strong_exception_safety 0 1
    (⟨fun a => if a = 0 then ⟨some 0, 1, 1⟩ else ⟨some 1, 2, 2⟩,
      ⟨[some [.live (7 : Int)], some [.live 10, .live 20]], [], [false, true], []⟩⟩ :
      World Int)).2.2 (by decide) 1 [] (by simp) rfl (by decide) (by decide)
  obtain ⟨hobjs, _, _, hH⟩ := (C4_copy_assign_strong_exception_safety 0 1
    (⟨fun a => if a = 0 then ⟨some 0, 1, 1⟩ else ⟨some 1, 2, 2⟩,
      ⟨[some [.live (7 : Int)], some [.live 10, .live 20]], [], [false, true], []⟩⟩ :
      World Int)).1 _ w' hrun
  refine ⟨w', hrun, ?_, hH [7] (by simp [Vector.Holds, SIZE_MOD])⟩
  rw [hobjs]
  rfl

/-! ## Lemmas on `SharedPtr<T>` -/

theorem countP_set_add {β : Type} (P : β → Bool) (x y : β) :
    ∀ (l : List β) (i : Nat), l[i]? = some y →
      (l.set i x).countP P + (if P y then 1 else 0) = l.countP P + (if P x then 1 else 0) := by
  intro l
  induction l with
  | nil => intro i h; simp at h
  | cons a t ih =>
    intro i h
    cases i with
    | zero =>
      simp only [List.getElem?_cons_zero, Option.some.injEq] at h
      subst h
      simp only [List.set_cons_zero, List.countP_cons]
      omega
    | succ i =>
      simp only [List.getElem?_cons_succ] at h
      have := ih i h
      simp only [List.set_cons_succ, List.countP_cons]
      omega

theorem SharedWorld.owners_pos_iff (w : SharedWorld) (c : Nat) :
    0 < w.owners c ↔ ∃ p, some p ∈ w.ptrs ∧ p.counter = some c := by
  unfold SharedWorld.owners
  rw [List.countP_pos_iff]
  constructor
  · rintro ⟨q, hq, hP⟩
    cases q with
    | none => simp [SharedPtr.hasCounter] at hP
    | some p => exact ⟨p, hq, by simpa [SharedPtr.hasCounter] using hP⟩
  · rintro ⟨p, hp, hc⟩
    exact ⟨some p, hp, by simp [SharedPtr.hasCounter, hc]⟩

theorem SharedWorld.Inv.counter_lt {w : SharedWorld} (hI : w.Inv) (p : SharedPtr) (c : Nat)
    (hp : some p ∈ w.ptrs) (hc : p.counter = some c) : c < w.counters.length := by
  have h := hI.count c ((w.owners_pos_iff c).2 ⟨p, hp, hc⟩)
  by_contra hge
  rw [List.getElem?_eq_none (by omega)] at h
  cases h

theorem SharedWorld.Inv.init : SharedPtr.init.Inv := by
  refine ⟨?_, ?_, ?_, ?_⟩ <;> simp [SharedPtr.init, SharedWorld.owners]

/-- Adding an empty `SharedPtr` object keeps the invariant. -/
theorem SharedWorld.Inv.push_empty {w : SharedWorld} (hI : w.Inv) :
    SharedWorld.Inv { w with ptrs := w.ptrs ++ [some ⟨none, none⟩] } := by
  have hown : ∀ c, SharedWorld.owners { w with ptrs := w.ptrs ++ [some ⟨none, none⟩] } c
      = w.owners c := by
    intro c
    simp [SharedWorld.owners, List.countP_append, SharedPtr.hasCounter]
  refine ⟨?_, ?_, ?_, ?_⟩
  · intro p hp
    simp only [List.mem_append, List.mem_singleton, Option.some.injEq] at hp
    rcases hp with hp | rfl
    · exact hI.null_iff p hp
    · simp
  · intro c hc
    rw [hown] at hc ⊢
    exact hI.count c hc
  · intro p q hp hq hpc
    simp only [List.mem_append, List.mem_singleton, Option.some.injEq] at hp hq
    rcases hp with hp | rfl
    · rcases hq with hq | rfl
      · exact hI.share p q hp hq hpc
      · simp only
        have := hI.null_iff p hp
        constructor
        · intro h; exact absurd (this.1 h) hpc
        · intro h; exact absurd h hpc
    · exact absurd rfl hpc
  · intro p r hp hr
    simp only [List.mem_append, List.mem_singleton, Option.some.injEq] at hp
    rcases hp with hp | rfl
    · exact hI.alive p r hp hr
    · cases hr

/-- Adding a `SharedPtr` over a fresh resource, with a new counter at 1, keeps the invariant. -/
theorem SharedWorld.Inv.push_fresh {w : SharedWorld} (hI : w.Inv) (r : Nat) (hf : w.Fresh r)
    (af : List Bool) :
    SharedWorld.Inv { w with ptrs := w.ptrs ++ [some ⟨some r, some w.counters.length⟩],
                             counters := w.counters ++ [some RefCounter.new],
                             allocFaults := af } := by
  have hnone : ∀ p, some p ∈ w.ptrs → p.counter ≠ some w.counters.length := by
    intro p hp hc
    have := hI.counter_lt p _ hp hc
    omega
  have hzero : w.owners w.counters.length = 0 := by
    by_contra hne
    obtain ⟨p, hp, hc⟩ := (w.owners_pos_iff _).1 (Nat.pos_of_ne_zero hne)
    exact hnone p hp hc
  have hown : ∀ c, SharedWorld.owners
      { w with ptrs := w.ptrs ++ [some ⟨some r, some w.counters.length⟩],
               counters := w.counters ++ [some RefCounter.new],
               allocFaults := af } c
      = w.owners c + (if c = w.counters.length then 1 else 0) := by
    intro c
    simp only [SharedWorld.owners, List.countP_append, List.countP_cons, List.countP_nil,
      SharedPtr.hasCounter, zero_add]
    by_cases hc : c = w.counters.length
    · simp [hc]
    · simp [hc, Ne.symm hc]
  refine ⟨?_, ?_, ?_, ?_⟩
  · intro p hp
    simp only [List.mem_append, List.mem_singleton, Option.some.injEq] at hp
    rcases hp with hp | rfl
    · exact hI.null_iff p hp
    · simp
  · intro c hc
    rw [hown] at hc ⊢
    by_cases hcl : c = w.counters.length
    · subst hcl
      simp [hzero, RefCounter.new]
    · simp only [hcl, if_false, Nat.add_zero] at hc ⊢
      have := hI.count c hc
      have hlt : c < w.counters.length := by
        by_contra hge
        rw [List.getElem?_eq_none (by omega)] at this
        cases this
      show (w.counters ++ [some RefCounter.new])[c]? = _
      rw [List.getElem?_append_left hlt]
      exact this
  · intro p q hp hq hpc
    simp only [List.mem_append, List.mem_singleton, Option.some.injEq] at hp hq
    rcases hp with hp | rfl
    · rcases hq with hq | rfl
      · exact hI.share p q hp hq hpc
      · simp only
        constructor
        · intro h; exact absurd h (hf.2 p hp)
        · intro h; exact absurd h (hnone p hp)
    · rcases hq with hq | rfl
      · simp only
        constructor
        · intro h; exact absurd h.symm (hf.2 q hq)
        · intro h; exact absurd h.symm (hnone q hq)
      · simp
  · intro p r' hp hr
    simp only [List.mem_append, List.mem_singleton, Option.some.injEq] at hp
    rcases hp with hp | rfl
    · exact hI.alive p r' hp hr
    · simp only [Option.some.injEq] at hr
      subst hr
      exact hf.1

theorem mem_set_cases {β : Type} (l : List β) (i : Nat) (x q : β) (hq : q ∈ l.set i x) :
    q = x ∨ q ∈ l := by
  rcases List.mem_or_eq_of_mem_set hq with h | h
  · exact Or.inr h
  · exact Or.inl h

theorem SharedPtr.eq_empty_of_counter_none {w : SharedWorld} (hI : w.Inv) (p : SharedPtr)
    (hp : some p ∈ w.ptrs) (hc : p.counter = none) : p = ⟨none, none⟩ := by
  have := (hI.null_iff p hp).2 hc
  cases p
  simp_all

/-- Storing a copy of the non-empty live object `o` in the empty object `self` and incrementing
the counter keeps the invariant. -/
theorem SharedWorld.Inv.adopt {w w' : SharedWorld} (hI : w.Inv) (self : Nat) (o : SharedPtr)
    (c : Nat) (hself : w.ptrs[self]? = some (some ⟨none, none⟩)) (ho : some o ∈ w.ptrs)
    (hc : o.counter = some c)
    (hrun : SharedPtr.incrementAt c
      { w with ptrs := w.ptrs.set self (some ⟨o.obj, o.counter⟩) } = .ok () w') :
    w'.Inv ∧ w' = { w with ptrs := w.ptrs.set self (some ⟨o.obj, o.counter⟩),
                           counters := w.counters.set c (some ⟨(w.owners c : Int) + 1⟩) } := by
  have hpos : 0 < w.owners c := (w.owners_pos_iff c).2 ⟨o, ho, hc⟩
  have hcnt := hI.count c hpos
  have hclt : c < w.counters.length := hI.counter_lt o c ho hc
  have hw' : w' = { w with ptrs := w.ptrs.set self (some ⟨o.obj, o.counter⟩),
                           counters := w.counters.set c (some ⟨(w.owners c : Int) + 1⟩) } := by
    unfold SharedPtr.incrementAt at hrun
    simp only [hcnt, RefCounter.increment] at hrun
    by_cases hmax : (w.owners c : Int) = INT_MAX
    · simp [hmax] at hrun
    · simp only [hmax, if_false, Res.ok.injEq, true_and] at hrun
      exact hrun.symm
  refine ⟨?_, hw'⟩
  subst hw'
  have hown : ∀ d, SharedWorld.owners
      { w with ptrs := w.ptrs.set self (some ⟨o.obj, o.counter⟩),
               counters := w.counters.set c (some ⟨(w.owners c : Int) + 1⟩) } d
      = w.owners d + (if d = c then 1 else 0) := by
    intro d
    have := countP_set_add (SharedPtr.hasCounter d) (some ⟨o.obj, o.counter⟩)
      (some ⟨none, none⟩) w.ptrs self hself
    simp only [SharedWorld.owners]
    by_cases hd : d = c
    · subst hd
      simpa [SharedPtr.hasCounter, hc] using this
    · have hd' : ¬ c = d := fun h => hd h.symm
      simpa [SharedPtr.hasCounter, hc, hd, hd'] using this
  have hmem : ∀ q, some q ∈ w.ptrs.set self (some ⟨o.obj, o.counter⟩) →
      (q.obj = o.obj ∧ q.counter = o.counter) ∨ some q ∈ w.ptrs := by
    intro q hq
    rcases mem_set_cases _ _ _ _ hq with h | h
    · simp only [Option.some.injEq] at h
      subst h
      exact Or.inl ⟨rfl, rfl⟩
    · exact Or.inr h
  have hlike : ∀ q, some q ∈ w.ptrs.set self (some ⟨o.obj, o.counter⟩) →
      ∃ q', some q' ∈ w.ptrs ∧ q.obj = q'.obj ∧ q.counter = q'.counter := by
    intro q hq
    rcases hmem q hq with ⟨h1, h2⟩ | h
    · exact ⟨o, ho, h1, h2⟩
    · exact ⟨q, h, rfl, rfl⟩
  refine ⟨?_, ?_, ?_, ?_⟩
  · intro p hp
    obtain ⟨p', hp', e1, e2⟩ := hlike p hp
    rw [e1, e2]
    exact hI.null_iff p' hp'
  · intro d hd
    rw [hown] at hd ⊢
    show (w.counters.set c (some ⟨(w.owners c : Int) + 1⟩))[d]? = _
    by_cases hdc : d = c
    · subst hdc
      rw [List.getElem?_set_self hclt]
      simp
    · simp only [hdc, if_false, Nat.add_zero] at hd ⊢
      rw [List.getElem?_set_ne (fun h => hdc h.symm)]
      exact hI.count d hd
  · intro p q hp hq hpc
    obtain ⟨p', hp', e1, e2⟩ := hlike p hp
    obtain ⟨q', hq', f1, f2⟩ := hlike q hq
    rw [e1, e2, f1, f2]
    rw [e2] at hpc
    exact hI.share p' q' hp' hq' hpc
  · intro p r hp hr
    obtain ⟨p', hp', e1, _⟩ := hlike p hp
    rw [e1] at hr
    exact hI.alive p' r hp' hr

/-- Ending the lifetime of an empty `SharedPtr` object keeps the invariant. -/
theorem SharedWorld.Inv.drop_empty {w : SharedWorld} (hI : w.Inv) (self : Nat)
    (hself : w.ptrs[self]? = some (some ⟨none, none⟩)) :
    SharedWorld.Inv { w with ptrs := w.ptrs.set self none } := by
  have hown : ∀ d, SharedWorld.owners { w with ptrs := w.ptrs.set self none } d = w.owners d := by
    intro d
    have := countP_set_add (SharedPtr.hasCounter d) none (some ⟨none, none⟩) w.ptrs self hself
    simpa [SharedPtr.hasCounter, SharedWorld.owners] using this
  have hmem : ∀ q, some q ∈ w.ptrs.set self none → some q ∈ w.ptrs := by
    intro q hq
    rcases mem_set_cases _ _ _ _ hq with h | h
    · cases h
    · exact h
  refine ⟨?_, ?_, ?_, ?_⟩
  · intro p hp
    exact hI.null_iff p (hmem p hp)
  · intro d hd
    rw [hown] at hd ⊢
    exact hI.count d hd
  · intro p q hp hq hpc
    exact hI.share p q (hmem p hp) (hmem q hq) hpc
  · intro p r hp hr
    exact hI.alive p r (hmem p hp) hr

/-- What `release()` does on a live object of a state that satisfies the invariant: nothing if the
object is empty; otherwise the counter holds the number `n ≥ 1` of owners, and the call decrements
it, deleting the resource and the counter when `n = 1`, and empties the object. -/
theorem SharedPtr.release_spec {w : SharedWorld} (hI : w.Inv) (self : Nat) (p : SharedPtr)
    (hp : w.ptrs[self]? = some (some p)) :
    (p.counter = none → p = ⟨none, none⟩ ∧ SharedPtr.release self w = .ok () w) ∧
    (∀ c, p.counter = some c →
      ∃ r, p.obj = some r ∧ r ∉ w.deleted ∧
        w.counters[c]? = some (some ⟨(w.owners c : Int)⟩) ∧ 1 ≤ w.owners c ∧
        (w.owners c = 1 → SharedPtr.release self w = .ok ()
          { w with ptrs := w.ptrs.set self (some ⟨none, none⟩),
                   counters := w.counters.set c none,
                   deleted := r :: w.deleted }) ∧
        (w.owners c ≠ 1 → SharedPtr.release self w = .ok ()
          { w with ptrs := w.ptrs.set self (some ⟨none, none⟩),
                   counters := w.counters.set c (some ⟨(w.owners c : Int) - 1⟩) })) := by
  have hmem : some p ∈ w.ptrs := List.getElem?_mem hp
  constructor
  · intro hc
    refine ⟨SharedPtr.eq_empty_of_counter_none hI p hmem hc, ?_⟩
    simp [SharedPtr.release, hp, hc]
  · intro c hc
    have hpos : 0 < w.owners c := (w.owners_pos_iff c).2 ⟨p, hmem, hc⟩
    have hcnt := hI.count c hpos
    have hobj : p.obj ≠ none := by
      intro h
      have := (hI.null_iff p hmem).1 h
      rw [hc] at this
      cases this
    obtain ⟨r, hr⟩ := Option.ne_none_iff_exists'.1 hobj
    have hal := hI.alive p r hmem hr
    have hmin : ¬ ((w.owners c : Int) = INT_MIN) := by
      unfold INT_MIN
      omega
    refine ⟨r, hr, hal, hcnt, hpos, ?_, ?_⟩
    · intro h1
      have hmin1 : ¬ ((1 : Int) = INT_MIN) := by unfold INT_MIN; omega
      simp only [SharedPtr.release, hp, hc, hcnt, RefCounter.decrement, hmin1, if_false,
        RefCounter.get, h1, Nat.cast_one, sub_self, if_true, SharedPtr.deleteObj, hr, hal,
        List.set_set]
    · intro h1
      have hne : ¬ ((w.owners c : Int) - 1 = 0) := by omega
      simp only [SharedPtr.release, hp, hc, hcnt, RefCounter.decrement, hmin, if_false,
        RefCounter.get, hne]

/-- The state after `release()` satisfies the invariant again, with the object empty. -/
theorem SharedWorld.Inv.release {w : SharedWorld} (hI : w.Inv) (self : Nat) (p : SharedPtr)
    (hp : w.ptrs[self]? = some (some p)) :
    ∃ w1, SharedPtr.release self w = .ok () w1 ∧ w1.Inv ∧
      w1.ptrs = w.ptrs.set self (some ⟨none, none⟩) ∧ w1.allocFaults = w.allocFaults := by
  have hmem : some p ∈ w.ptrs := List.getElem?_mem hp
  have hlt : self < w.ptrs.length := by
    by_contra hge
    rw [List.getElem?_eq_none (by omega)] at hp
    cases hp
  obtain ⟨hnone, hsome⟩ := SharedPtr.release_spec hI self p hp
  cases hc : p.counter with
  | none =>
    obtain ⟨hpe, hrun⟩ := hnone hc
    refine ⟨w, hrun, hI, ?_, rfl⟩
    rw [hpe] at hp
    exact list_set_same _ _ _ hp
  | some c =>
    obtain ⟨r, hr, hal, hcnt, hpos, hlast, hshared⟩ := hsome c hc
    have hmemset : ∀ q, some q ∈ w.ptrs.set self (some ⟨none, none⟩) →
        q = ⟨none, none⟩ ∨ some q ∈ w.ptrs := by
      intro q hq
      rcases mem_set_cases _ _ _ _ hq with h | h
      · simp only [Option.some.injEq] at h
        exact Or.inl h
      · exact Or.inr h
    have hownl : ∀ d, (w.ptrs.set self (some ⟨none, none⟩)).countP (SharedPtr.hasCounter d)
        + (if d = c then 1 else 0) = w.owners d := by
      intro d
      have := countP_set_add (SharedPtr.hasCounter d) (some ⟨none, none⟩) (some p) w.ptrs self hp
      simp only [SharedWorld.owners]
      by_cases hd : d = c
      · subst hd
        simpa [SharedPtr.hasCounter, hc] using this
      · have hd' : ¬ c = d := fun h => hd h.symm
        simpa [SharedPtr.hasCounter, hc, hd, hd'] using this
    have hnull : ∀ q, some q ∈ w.ptrs.set self (some ⟨none, none⟩) →
        (q.obj = none ↔ q.counter = none) := by
      intro q hq
      rcases hmemset q hq with rfl | h
      · simp
      · exact hI.null_iff q h
    have hshare : ∀ q q', some q ∈ w.ptrs.set self (some ⟨none, none⟩) →
        some q' ∈ w.ptrs.set self (some ⟨none, none⟩) → q.counter ≠ none →
        (q.obj = q'.obj ↔ q.counter = q'.counter) := by
      intro q q' hq hq' hqc
      rcases hmemset q hq with rfl | h
      · exact absurd rfl hqc
      · rcases hmemset q' hq' with rfl | h'
        · simp only
          have := hI.null_iff q h
          constructor
          · intro e; exact absurd (this.1 e) hqc
          · intro e; exact absurd e hqc
        · exact hI.share q q' h h' hqc
    by_cases h1 : w.owners c = 1
    · refine ⟨_, hlast h1, ⟨hnull, ?_, hshare, ?_⟩, rfl, rfl⟩
      · intro d hd
        simp only [SharedWorld.owners] at hd ⊢
        have hod := hownl d
        by_cases hdc : d = c
        · subst hdc
          simp only [if_true] at hod
          omega
        · simp only [hdc, if_false, Nat.add_zero] at hod
          rw [hod] at hd ⊢
          show (w.counters.set c none)[d]? = _
          rw [List.getElem?_set_ne (fun h => hdc h.symm)]
          exact hI.count d hd
      · intro q r' hq hr'
        simp only [List.mem_cons, not_or]
        rcases hmemset q hq with rfl | h
        · cases hr'
        · refine ⟨?_, hI.alive q r' h hr'⟩
          intro hrr
          subst hrr
          have hsame : p.counter = q.counter :=
            (hI.share p q hmem h (by rw [hc]; simp)).1 (by rw [hr, hr'])
          have hqc : q.counter = some c := by rw [← hsame, hc]
          have hpos' : 0 < (w.ptrs.set self (some ⟨none, none⟩)).countP
              (SharedPtr.hasCounter c) := by
            rw [List.countP_pos_iff]
            exact ⟨some q, hq, by simp [SharedPtr.hasCounter, hqc]⟩
          have hod := hownl c
          simp only [if_true] at hod
          omega
    · refine ⟨_, hshared h1, ⟨hnull, ?_, hshare, ?_⟩, rfl, rfl⟩
      · intro d hd
        simp only [SharedWorld.owners] at hd ⊢
        have hod := hownl d
        have hclt : c < w.counters.length := hI.counter_lt p c hmem hc
        show (w.counters.set c (some ⟨(w.owners c : Int) - 1⟩))[d]? = _
        by_cases hdc : d = c
        · subst hdc
          simp only [if_true] at hod
          rw [List.getElem?_set_self hclt]
          simp only [Option.some.injEq, RefCounter.mk.injEq]
          omega
        · simp only [hdc, if_false, Nat.add_zero] at hod
          rw [hod] at hd ⊢
          rw [List.getElem?_set_ne (fun h => hdc h.symm)]
          exact hI.count d hd
      · intro q r' hq hr'
        rcases hmemset q hq with rfl | h
        · cases hr'
        · exact hI.alive q r' h hr'

theorem SharedWorld.Inv.congr {w w' : SharedWorld} (hI : w.Inv) (h1 : w'.ptrs = w.ptrs)
    (h2 : w'.counters = w.counters) (h3 : w'.deleted = w.deleted) : w'.Inv := by
  obtain ⟨a, b, c, d⟩ := hI
  refine ⟨?_, ?_, ?_, ?_⟩
  · rw [h1]; exact a
  · simp only [SharedWorld.owners] at b ⊢
    rw [h1, h2]; exact b
  · rw [h1]; exact c
  · rw [h1, h3]; exact d

theorem SharedPtr.incrementAt_not_throw (c : Nat) (w w' : SharedWorld) (e : Exn) :
    SharedPtr.incrementAt c w ≠ .throw e w' := by
  intro hrun
  unfold SharedPtr.incrementAt at hrun
  split at hrun
  · split at hrun <;> cases hrun
  · cases hrun

/-- The copy constructor keeps the invariant. -/
theorem SharedWorld.Inv.copyCtor {w w' : SharedWorld} (hI : w.Inv) (other id : Nat)
    (hrun : SharedPtr.copyCtor other w = .ok id w') : w'.Inv := by
  unfold SharedPtr.copyCtor at hrun
  cases ho : w.ptrs[other]? with
  | none => simp [ho] at hrun
  | some oo =>
    cases oo with
    | none => simp [ho] at hrun
    | some o =>
      have hmem : some o ∈ w.ptrs := List.getElem?_mem ho
      simp only [ho] at hrun
      cases hc : o.counter with
      | none =>
        simp only [hc, Res.ok.injEq] at hrun
        obtain ⟨_, rfl⟩ := hrun
        have := SharedPtr.eq_empty_of_counter_none hI o hmem hc
        subst this
        exact hI.push_empty
      | some c =>
        simp only [hc] at hrun
        cases hinc : SharedPtr.incrementAt c
            { w with ptrs := w.ptrs ++ [some ⟨o.obj, some c⟩] } with
        | throw e w1 => rw [hinc] at hrun; cases hrun
        | ub => rw [hinc] at hrun; cases hrun
        | ok u w1 =>
          rw [hinc] at hrun
          simp only [Res.ok.injEq] at hrun
          obtain ⟨_, rfl⟩ := hrun
          have h0 := hI.push_empty
          have hset : w.ptrs ++ [some (SharedPtr.mk o.obj (some c))] =
              (w.ptrs ++ [some (SharedPtr.mk none none)]).set w.ptrs.length
                (some (SharedPtr.mk o.obj o.counter)) := by
            simp [hc]
          rw [hset] at hinc
          exact (h0.adopt w.ptrs.length o c (by simp)
            (List.mem_append_left _ hmem) hc hinc).1

/-- Copy assignment keeps the invariant. -/
theorem SharedWorld.Inv.copyAssign {w w' : SharedWorld} (hI : w.Inv) (self other : Nat)
    (hrun : SharedPtr.copyAssign self other w = .ok () w') : w'.Inv := by
  unfold SharedPtr.copyAssign at hrun
  split at hrun
  · rename_i p o hp ho
    by_cases hne : self = other
    · simp only [hne, ne_eq, not_true_eq_false, if_false, Res.ok.injEq, true_and] at hrun
      subst hrun
      exact hI
    · rw [if_pos hne] at hrun
      obtain ⟨w1, hrel, hI1, hptrs, _⟩ := hI.release self p hp
      rw [hrel] at hrun
      simp only at hrun
      have hlt : self < w.ptrs.length := by
        by_contra hge
        rw [List.getElem?_eq_none (by omega)] at hp
        cases hp
      have ho1 : w1.ptrs[other]? = some (some o) := by
        rw [hptrs, List.getElem?_set_ne hne]
        exact ho
      have hs1 : w1.ptrs[self]? = some (some ⟨none, none⟩) := by
        rw [hptrs, List.getElem?_set_self hlt]
      have hmem : some o ∈ w1.ptrs := List.getElem?_mem ho1
      simp only [ho1] at hrun
      cases hc : o.counter with
      | none =>
        simp only [hc, Res.ok.injEq, true_and] at hrun
        subst hrun
        have := SharedPtr.eq_empty_of_counter_none hI1 o hmem hc
        subst this
        exact hI1.congr (list_set_same _ _ _ hs1).symm rfl rfl
      | some c =>
        simp only [hc] at hrun
        have hrun' : SharedPtr.incrementAt c
            { w1 with ptrs := w1.ptrs.set self (some ⟨o.obj, o.counter⟩) } = .ok () w' := by
          rw [hc]; exact hrun
        exact (hI1.adopt self o c hs1 hmem hc hrun').1
  · cases hrun

/-- The destructor keeps the invariant. -/
theorem SharedWorld.Inv.dtor {w w' : SharedWorld} (hI : w.Inv) (self : Nat)
    (hrun : SharedPtr.dtor self w = .ok () w') : w'.Inv := by
  unfold SharedPtr.dtor at hrun
  cases hp : w.ptrs[self]? with
  | none => simp [SharedPtr.release, hp] at hrun
  | some pp =>
    cases pp with
    | none => simp [SharedPtr.release, hp] at hrun
    | some p =>
      obtain ⟨w1, hrel, hI1, hptrs, _⟩ := hI.release self p hp
      have hlt : self < w.ptrs.length := by
        by_contra hge
        rw [List.getElem?_eq_none (by omega)] at hp
        cases hp
      rw [hrel] at hrun
      simp only [Res.ok.injEq, true_and] at hrun
      subst hrun
      exact hI1.drop_empty self (by rw [hptrs, List.getElem?_set_self hlt])

/-- Every operation of a client program keeps the invariant, whether it returns or throws, when a
resource handed to `SharedPtr(T*)` is fresh. -/
theorem SharedOp.step_inv (op : SharedOp) (w : SharedWorld) (hI : w.Inv)
    (hfresh : match op with
      | .ctor (some r) => w.Fresh r
      | _ => True) :
    (∀ w', op.step w = .ok () w' → w'.Inv) ∧ (∀ e w', op.step w = .throw e w' → w'.Inv) := by
  cases op with
  | ctor raw =>
    cases raw with
    | none =>
      constructor
      · intro w' hrun
        simp only [SharedOp.step, SharedPtr.ctor, Res.ok.injEq, true_and] at hrun
        subst hrun
        exact hI.push_empty
      · intro e w' hrun
        simp [SharedOp.step, SharedPtr.ctor] at hrun
    | some r =>
      simp only at hfresh
      constructor
      · intro w' hrun
        simp only [SharedOp.step, SharedPtr.ctor] at hrun
        split at hrun
        · rename_i id w1 hc
          split at hc
          · cases hc
          · simp only [Res.ok.injEq] at hc hrun
            obtain ⟨_, rfl⟩ := hc
            obtain ⟨_, rfl⟩ := hrun
            exact hI.push_fresh r hfresh _
        · cases hrun
        · cases hrun
      · intro e w' hrun
        simp only [SharedOp.step, SharedPtr.ctor] at hrun
        split at hrun
        · cases hrun
        · rename_i e1 w1 hc
          split at hc
          · simp only [Res.throw.injEq] at hc hrun
            obtain ⟨_, rfl⟩ := hc
            obtain ⟨_, rfl⟩ := hrun
            exact hI.congr rfl rfl rfl
          · cases hc
        · cases hrun
  | copyCtor other =>
    constructor
    · intro w' hrun
      simp only [SharedOp.step] at hrun
      split at hrun
      · rename_i id w1 hc
        simp only [Res.ok.injEq, true_and] at hrun
        subst hrun
        exact hI.copyCtor other id hc
      · cases hrun
      · cases hrun
    · intro e w' hrun
      simp only [SharedOp.step] at hrun
      split at hrun
      · cases hrun
      · rename_i e1 w1 hc
        exfalso
        unfold SharedPtr.copyCtor at hc
        split at hc
        · split at hc
          · split at hc
            · cases hc
            · rename_i hinc
              exact SharedPtr.incrementAt_not_throw _ _ _ _ hinc
            · cases hc
          · cases hc
        · cases hc
      · cases hrun
  | copyAssign self other =>
    constructor
    · intro w' hrun
      exact hI.copyAssign self other hrun
    · intro e w' hrun
      exfalso
      simp only [SharedOp.step] at hrun
      unfold SharedPtr.copyAssign at hrun
      split at hrun
      · rename_i p o hp ho
        by_cases hne : self = other
        · simp [hne] at hrun
        · rw [if_pos hne] at hrun
          obtain ⟨w1, hrel, _, _, _⟩ := hI.release self p hp
          rw [hrel] at hrun
          simp only at hrun
          split at hrun
          · split at hrun
            · exact SharedPtr.incrementAt_not_throw _ _ _ _ hrun
            · cases hrun
          · cases hrun
      · cases hrun
  | dtor self =>
    constructor
    · intro w' hrun
      exact hI.dtor self hrun
    · intro e w' hrun
      exfalso
      simp only [SharedOp.step, SharedPtr.dtor] at hrun
      cases hp : w.ptrs[self]? with
      | none => simp [SharedPtr.release, hp] at hrun
      | some pp =>
        cases pp with
        | none => simp [SharedPtr.release, hp] at hrun
        | some p =>
          obtain ⟨w1, hrel, _, _, _⟩ := hI.release self p hp
          rw [hrel] at hrun
          cases hrun

/-- Every state a client program reaches satisfies the invariant, when each resource is handed to
`SharedPtr(T*)` fresh. -/
theorem SharedOp.run_inv (ops : List SharedOp) :
    ∀ (w w' : SharedWorld), w.Inv → SharedOp.FreshRun ops w → SharedOp.run ops w = some w' →
      w'.Inv := by
  induction ops with
  | nil =>
    intro w w' hI _ hrun
    simp only [SharedOp.run, Option.some.injEq] at hrun
    subst hrun
    exact hI
  | cons op rest ih =>
    intro w w' hI hfresh hrun
    simp only [SharedOp.FreshRun] at hfresh
    obtain ⟨hf1, hf2⟩ := hfresh
    obtain ⟨hok, hthrow⟩ := SharedOp.step_inv op w hI hf1
    simp only [SharedOp.run] at hrun
    cases hs : op.step w with
    | ok u w1 =>
      rw [hs] at hrun hf2
      exact ih w1 w' (hok w1 hs) hf2 hrun
    | throw e w1 =>
      rw [hs] at hrun hf2
      exact ih w1 w' (hthrow e w1 hs) hf2 hrun
    | ub => rw [hs] at hrun; cases hrun

/-- In a state that satisfies the invariant, the live objects over the resource `r` are the live
objects that point to the counter of any one of them. -/
theorem SharedWorld.Inv.sharers_eq_owners {w : SharedWorld} (hI : w.Inv) (p : SharedPtr)
    (r c : Nat) (hp : some p ∈ w.ptrs) (hr : p.obj = some r) (hc : p.counter = some c) :
    w.sharers r = w.owners c := by
  unfold SharedWorld.sharers SharedWorld.owners
  apply List.countP_congr
  intro q hq
  cases q with
  | none => simp [SharedPtr.hasObj, SharedPtr.hasCounter]
  | some q =>
    have := hI.share p q hp hq (by rw [hc]; simp)
    rw [hr, hc] at this
    simp only [SharedPtr.hasObj, SharedPtr.hasCounter, beq_iff_eq]
    constructor
    · intro h; exact (this.1 h.symm).symm
    · intro h; exact (this.2 h.symm).symm

/-! ## Claims on `SharedPtr<T>` -/

/-- C8: in every state that a program reaches from no object (whatever allocations will fail) by
constructing `SharedPtr`s from fresh resources or from null, copy-constructing, copy-assigning and
destroying them, every live `SharedPtr` has `obj` null iff `counter` null; `use_count()` of an
empty one is 0; `use_count()` of one over a resource `r` is the number of live `SharedPtr`s whose
`obj` is `r`, and all of those have the same counter. -/
theorem C8_use_count_counts_live_owners (af : List Bool) (ops : List SharedOp) (w : SharedWorld)
    (hfresh : SharedOp.FreshRun ops ⟨[], [], [], af⟩)
    (hrun : SharedOp.run ops ⟨[], [], [], af⟩ = some w) :
    ∀ (i : Nat) (p : SharedPtr), w.ptrs[i]? = some (some p) →
      (p.obj = none ↔ p.counter = none) ∧
      (p.obj = none → SharedPtr.use_count i w = some 0) ∧
      (∀ r, p.obj = some r →
        SharedPtr.use_count i w = some (w.sharers r : Int) ∧
        ∀ (j : Nat) (q : SharedPtr), w.ptrs[j]? = some (some q) → q.obj = some r →
          q.counter = p.counter) := by
  have hI0 : SharedWorld.Inv ⟨[], [], [], af⟩ := SharedWorld.Inv.init.congr rfl rfl rfl
  have hI := SharedOp.run_inv ops _ w hI0 hfresh hrun
  intro i p hp
  have hmem : some p ∈ w.ptrs := List.getElem?_mem hp
  refine ⟨hI.null_iff p hmem, ?_, ?_⟩
  · intro hnull
    have hc := (hI.null_iff p hmem).1 hnull
    simp [SharedPtr.use_count, hp, hc]
  · intro r hr
    have hcne : p.counter ≠ none := fun h => by
      have := (hI.null_iff p hmem).2 h
      rw [hr] at this
      cases this
    obtain ⟨c, hc⟩ := Option.ne_none_iff_exists'.1 hcne
    have hcnt := hI.count c ((w.owners_pos_iff c).2 ⟨p, hmem, hc⟩)
    constructor
    · simp only [SharedPtr.use_count, hp, hc, hcnt, RefCounter.get]
      rw [hI.sharers_eq_owners p r c hmem hr hc]
    · intro j q hq hqr
      have := hI.share p q hmem (List.getElem?_mem hq) hcne
      exact (this.1 (by rw [hr, hqr])).symm

/-- Witness of C8: `A` constructed over the resource 7 reports `use_count() == 1`; after `B` is
copy-constructed from `A`, both report `use_count() == 2`, the number of live objects over 7. -/
theorem C8_use_count_counts_live_owners_witness :
    SharedPtr.use_count 0 ⟨[some ⟨some 7, some 0⟩], [some ⟨1⟩], [], []⟩ = some 1 ∧
    SharedPtr.use_count 0 ⟨[some ⟨some 7, some 0⟩, some ⟨some 7, some 0⟩], [some ⟨2⟩], [], []⟩
      = some 2 ∧
    SharedPtr.use_count 1 ⟨[some ⟨some 7, some 0⟩, some ⟨some 7, some 0⟩], [some ⟨2⟩], [], []⟩
      = some 2 := by
  have h1 := C8_use_count_counts_live_owners [] [.ctor (some 7)]
    ⟨[some ⟨some 7, some 0⟩], [some ⟨1⟩], [], []⟩
    (by simp [SharedOp.FreshRun, SharedOp.step, SharedPtr.ctor, RefCounter.new,
          SharedWorld.Fresh])
    (by decide)
  have h := C8_use_count_counts_live_owners [] [.ctor (some 7), .copyCtor 0]
    ⟨[some ⟨some 7, some 0⟩, some ⟨some 7, some 0⟩], [some ⟨2⟩], [], []⟩
    (by simp [SharedOp.FreshRun, SharedOp.step, SharedPtr.ctor, SharedPtr.copyCtor,
          SharedPtr.incrementAt, RefCounter.increment, RefCounter.new, SharedWorld.Fresh,
          INT_MAX])
    (by decide)
  exact ⟨((h1 0 ⟨some 7, some 0⟩ rfl).2.2 7 rfl).1, ((h 0 ⟨some 7, some 0⟩ rfl).2.2 7 rfl).1,
    ((h 1 ⟨some 7, some 0⟩ rfl).2.2 7 rfl).1⟩

/-- How `release()` changes the log of destroyed resources in a state that satisfies the
invariant: not at all, or by one resource that was not in the log. -/
theorem SharedPtr.release_deleted {w w1 : SharedWorld} (hI : w.Inv) (self : Nat)
    (hrel : SharedPtr.release self w = .ok () w1) :
    w1.deleted = w.deleted ∨ ∃ r, r ∉ w.deleted ∧ w1.deleted = r :: w.deleted := by
  cases hp : w.ptrs[self]? with
  | none => simp [SharedPtr.release, hp] at hrel
  | some pp =>
    cases pp with
    | none => simp [SharedPtr.release, hp] at hrel
    | some p =>
      obtain ⟨hnone, hsome⟩ := SharedPtr.release_spec hI self p hp
      cases hc : p.counter with
      | none =>
        rw [(hnone hc).2] at hrel
        simp only [Res.ok.injEq, true_and] at hrel
        subst hrel
        exact Or.inl rfl
      | some c =>
        obtain ⟨r, _, hal, _, _, hlast, hshared⟩ := hsome c hc
        by_cases h1 : w.owners c = 1
        · rw [hlast h1] at hrel
          simp only [Res.ok.injEq, true_and] at hrel
          subst hrel
          exact Or.inr ⟨r, hal, rfl⟩
        · rw [hshared h1] at hrel
          simp only [Res.ok.injEq, true_and] at hrel
          subst hrel
          exact Or.inl rfl

/-- No operation of a client program destroys a resource twice. -/
theorem SharedOp.step_nodup (op : SharedOp) (w : SharedWorld) (hI : w.Inv)
    (hnd : w.deleted.Nodup) :
    (∀ w', op.step w = .ok () w' → w'.deleted.Nodup) ∧
    (∀ e w', op.step w = .throw e w' → w'.deleted.Nodup) := by
  have hcons : ∀ (w1 : SharedWorld),
      (w1.deleted = w.deleted ∨ ∃ r, r ∉ w.deleted ∧ w1.deleted = r :: w.deleted) →
      w1.deleted.Nodup := by
    intro w1 h
    rcases h with h | ⟨r, hr, h⟩
    · rw [h]; exact hnd
    · rw [h]; exact List.nodup_cons.2 ⟨hr, hnd⟩
  cases op with
  | ctor raw =>
    cases raw with
    | none =>
      constructor
      · intro w' hrun
        simp only [SharedOp.step, SharedPtr.ctor, Res.ok.injEq, true_and] at hrun
        subst hrun
        exact hnd
      · intro e w' hrun
        simp [SharedOp.step, SharedPtr.ctor] at hrun
    | some r =>
      constructor
      · intro w' hrun
        simp only [SharedOp.step, SharedPtr.ctor] at hrun
        split at hrun
        · rename_i id w1 hc
          split at hc
          · cases hc
          · simp only [Res.ok.injEq] at hc hrun
            obtain ⟨_, rfl⟩ := hc
            obtain ⟨_, rfl⟩ := hrun
            exact hnd
        · cases hrun
        · cases hrun
      · intro e w' hrun
        simp only [SharedOp.step, SharedPtr.ctor] at hrun
        split at hrun
        · cases hrun
        · rename_i e1 w1 hc
          split at hc
          · simp only [Res.throw.injEq] at hc hrun
            obtain ⟨_, rfl⟩ := hc
            obtain ⟨_, rfl⟩ := hrun
            exact hnd
          · cases hc
        · cases hrun
  | copyCtor other =>
    constructor
    · intro w' hrun
      simp only [SharedOp.step] at hrun
      split at hrun
      · rename_i id w1 hc
        simp only [Res.ok.injEq, true_and] at hrun
        subst hrun
        unfold SharedPtr.copyCtor at hc
        split at hc
        · split at hc
          · split at hc
            · rename_i u w2 hinc
              simp only [Res.ok.injEq] at hc
              obtain ⟨_, rfl⟩ := hc
              unfold SharedPtr.incrementAt at hinc
              split at hinc
              · split at hinc
                · simp only [Res.ok.injEq, true_and] at hinc
                  subst hinc
                  exact hnd
                · cases hinc
              · cases hinc
            · cases hc
            · cases hc
          · simp only [Res.ok.injEq] at hc
            obtain ⟨_, rfl⟩ := hc
            exact hnd
        · cases hc
      · cases hrun
      · cases hrun
    · intro e w' hrun
      exact absurd ((SharedOp.step_inv (.copyCtor other) w hI trivial).2 e w' hrun) (by
        intro _
        simp only [SharedOp.step] at hrun
        split at hrun
        · cases hrun
        · rename_i e1 w1 hc
          unfold SharedPtr.copyCtor at hc
          split at hc
          · split at hc
            · split at hc
              · cases hc
              · rename_i hinc
                exact SharedPtr.incrementAt_not_throw _ _ _ _ hinc
              · cases hc
            · cases hc
          · cases hc
        · cases hrun)
  | copyAssign self other =>
    constructor
    · intro w' hrun
      simp only [SharedOp.step] at hrun
      unfold SharedPtr.copyAssign at hrun
      split at hrun
      · rename_i p o hp ho
        by_cases hne : self = other
        · simp only [hne, ne_eq, not_true_eq_false, if_false, Res.ok.injEq, true_and] at hrun
          subst hrun
          exact hnd
        · rw [if_pos hne] at hrun
          obtain ⟨w1, hrel, hI1, hptrs, _⟩ := hI.release self p hp
          have hd1 := hcons w1 (SharedPtr.release_deleted hI self hrel)
          rw [hrel] at hrun
          simp only at hrun
          split at hrun
          · split at hrun
            · unfold SharedPtr.incrementAt at hrun
              split at hrun
              · split at hrun
                · simp only [Res.ok.injEq, true_and] at hrun
                  subst hrun
                  exact hd1
                · cases hrun
              · cases hrun
            · simp only [Res.ok.injEq, true_and] at hrun
              subst hrun
              exact hd1
          · cases hrun
      · cases hrun
    · intro e w' hrun
      exfalso
      simp only [SharedOp.step] at hrun
      unfold SharedPtr.copyAssign at hrun
      split at hrun
      · rename_i p o hp ho
        by_cases hne : self = other
        · simp [hne] at hrun
        · rw [if_pos hne] at hrun
          obtain ⟨w1, hrel, _, _, _⟩ := hI.release self p hp
          rw [hrel] at hrun
          simp only at hrun
          split at hrun
          · split at hrun
            · exact SharedPtr.incrementAt_not_throw _ _ _ _ hrun
            · cases hrun
          · cases hrun
      · cases hrun
  | dtor self =>
    constructor
    · intro w' hrun
      simp only [SharedOp.step, SharedPtr.dtor] at hrun
      split at hrun
      · rename_i u w1 hrel
        simp only [Res.ok.injEq, true_and] at hrun
        subst hrun
        exact hcons w1 (SharedPtr.release_deleted hI self hrel)
      · cases hrun
      · cases hrun
    · intro e w' hrun
      exfalso
      simp only [SharedOp.step, SharedPtr.dtor] at hrun
      cases hp : w.ptrs[self]? with
      | none => simp [SharedPtr.release, hp] at hrun
      | some pp =>
        cases pp with
        | none => simp [SharedPtr.release, hp] at hrun
        | some p =>
          obtain ⟨w1, hrel, _, _, _⟩ := hI.release self p hp
          rw [hrel] at hrun
          cases hrun

/-- In every state a client program reaches, no resource was destroyed twice. -/
theorem SharedOp.run_nodup (ops : List SharedOp) :
    ∀ (w w' : SharedWorld), w.Inv → w.deleted.Nodup → SharedOp.FreshRun ops w →
      SharedOp.run ops w = some w' → w'.deleted.Nodup := by
  induction ops with
  | nil =>
    intro w w' _ hnd _ hrun
    simp only [SharedOp.run, Option.some.injEq] at hrun
    subst hrun
    exact hnd
  | cons op rest ih =>
    intro w w' hI hnd hfresh hrun
    simp only [SharedOp.FreshRun] at hfresh
    obtain ⟨hf1, hf2⟩ := hfresh
    obtain ⟨hok, hthrow⟩ := SharedOp.step_inv op w hI hf1
    obtain ⟨hok', hthrow'⟩ := SharedOp.step_nodup op w hI hnd
    simp only [SharedOp.run] at hrun
    cases hs : op.step w with
    | ok u w1 =>
      rw [hs] at hrun hf2
      exact ih w1 w' (hok w1 hs) (hok' w1 hs) hf2 hrun
    | throw e w1 =>
      rw [hs] at hrun hf2
      exact ih w1 w' (hthrow e w1 hs) (hthrow' e w1 hs) hf2 hrun
    | ub => rw [hs] at hrun; cases hrun

/-- C9 fails as stated: after `SharedPtr a(R); SharedPtr b(R);` with the same resource `R = 7`,
two live objects reference `R`, each through its own counter holding 1. Destroying `a` destroys
`R` although `b`, which is not destroyed, still references it; destroying `b` afterwards deletes
`R` a second time, which is undefined behaviour. -/
theorem C9_same_resource_twice_counterexample :
    SharedOp.run [.ctor (some 7), .ctor (some 7)] SharedPtr.init =
      some ⟨[some ⟨some 7, some 0⟩, some ⟨some 7, some 1⟩], [some ⟨1⟩, some ⟨1⟩], [], []⟩ ∧
    SharedWorld.sharers
      ⟨[some ⟨some 7, some 0⟩, some ⟨some 7, some 1⟩], [some ⟨1⟩, some ⟨1⟩], [], []⟩ 7 = 2 ∧
    SharedPtr.dtor 0
      ⟨[some ⟨some 7, some 0⟩, some ⟨some 7, some 1⟩], [some ⟨1⟩, some ⟨1⟩], [], []⟩ =
      .ok () ⟨[none, some ⟨some 7, some 1⟩], [none, some ⟨1⟩], [7], []⟩ ∧
    SharedPtr.get 1 ⟨[none, some ⟨some 7, some 1⟩], [none, some ⟨1⟩], [7], []⟩ = some (some 7) ∧
    SharedPtr.dtor 1 ⟨[none, some ⟨some 7, some 1⟩], [none, some ⟨1⟩], [7], []⟩ = .ub := by
  refine ⟨?_, ?_, ?_, ?_, ?_⟩ <;> decide

/-- C9, amended: in a state that a program reaches with fresh resources, destroying a live `SharedPtr` over
the resource `r`, whose counter holds `n` (the number of live `SharedPtr`s over `r`), returns;
the object is gone and `n - 1` objects over `r` stay. When `n - 1 == 0` the counter is deleted and
`r` is destroyed in that call (it is added to the log of destroyed resources, in which it was
not); otherwise the counter holds `n - 1`, the log is unchanged and every remaining `SharedPtr`
over `r` reports `use_count() == n - 1`. The log never holds a resource twice: a resource is
destroyed once, by the destruction of its last owner. -/
theorem C9_destroy_decrements_and_releases_last (af : List Bool) (ops : List SharedOp)
    (w : SharedWorld) (hfresh : SharedOp.FreshRun ops ⟨[], [], [], af⟩)
    (hrun : SharedOp.run ops ⟨[], [], [], af⟩ = some w)
    (self : Nat) (p : SharedPtr) (r : Nat)
    (hp : w.ptrs[self]? = some (some p)) (hr : p.obj = some r) :
    w.deleted.Nodup ∧ r ∉ w.deleted ∧ 1 ≤ w.sharers r ∧
    ∃ c w', p.counter = some c ∧
      w.counters[c]? = some (some ⟨(w.sharers r : Int)⟩) ∧
      SharedPtr.dtor self w = .ok () w' ∧
      w'.ptrs = w.ptrs.set self none ∧ w'.sharers r = w.sharers r - 1 ∧ w'.deleted.Nodup ∧
      (w.sharers r = 1 → w'.counters[c]? = some none ∧ w'.deleted = r :: w.deleted) ∧
      (w.sharers r ≠ 1 →
        w'.counters[c]? = some (some ⟨(w.sharers r : Int) - 1⟩) ∧ w'.deleted = w.deleted ∧
        ∀ (j : Nat) (q : SharedPtr), w'.ptrs[j]? = some (some q) → q.obj = some r →
          SharedPtr.use_count j w' = some ((w.sharers r : Int) - 1)) := by
  have hI0 : SharedWorld.Inv ⟨[], [], [], af⟩ := SharedWorld.Inv.init.congr rfl rfl rfl
  have hI := SharedOp.run_inv ops _ w hI0 hfresh hrun
  have hnd := SharedOp.run_nodup ops _ w hI0 List.nodup_nil hfresh hrun
  have hmem : some p ∈ w.ptrs := List.getElem?_mem hp
  have hlt : self < w.ptrs.length := by
    by_contra hge
    rw [List.getElem?_eq_none (by omega)] at hp
    cases hp
  have hcne : p.counter ≠ none := fun h => by
    have := (hI.null_iff p hmem).2 h
    rw [hr] at this
    cases this
  obtain ⟨c, hc⟩ := Option.ne_none_iff_exists'.1 hcne
  have hso := hI.sharers_eq_owners p r c hmem hr hc
  obtain ⟨r', hr', hal, hcnt, hpos, hlast, hshared⟩ := (SharedPtr.release_spec hI self p hp).2 c hc
  have hrr : r' = r := by
    rw [hr] at hr'
    simp only [Option.some.injEq] at hr'
    exact hr'.symm
  subst hrr
  have hclt : c < w.counters.length := hI.counter_lt p c hmem hc
  obtain ⟨w1, hrel, hI1, hptrs, _⟩ := hI.release self p hp
  have hdtor : SharedPtr.dtor self w = .ok () { w1 with ptrs := w1.ptrs.set self none } := by
    simp only [SharedPtr.dtor, hrel]
  have hI' := hI.dtor self hdtor
  have hptrs' : w1.ptrs.set self none = w.ptrs.set self none := by
    rw [hptrs, List.set_set]
  have hsh : SharedWorld.sharers { w1 with ptrs := w1.ptrs.set self none } r' + 1
      = w.sharers r' := by
    have := countP_set_add (SharedPtr.hasObj r') none (some p) w.ptrs self hp
    simp only [SharedWorld.sharers, hptrs']
    simpa [SharedPtr.hasObj, hr] using this
  have hnd' : ({ w1 with ptrs := w1.ptrs.set self none } : SharedWorld).deleted.Nodup := by
    rcases SharedPtr.release_deleted hI self hrel with h | ⟨x, hx, h⟩
    · show w1.deleted.Nodup
      rw [h]; exact hnd
    · show w1.deleted.Nodup
      rw [h]; exact List.nodup_cons.2 ⟨hx, hnd⟩
  refine ⟨hnd, hal, by omega, c, _, hc, by rw [hso]; exact hcnt, hdtor, hptrs', by omega,
    hnd', ?_, ?_⟩
  · intro h1
    rw [hso] at h1
    rw [hlast h1] at hrel
    simp only [Res.ok.injEq, true_and] at hrel
    subst hrel
    exact ⟨by simp only; rw [List.getElem?_set_self hclt], rfl⟩
  · intro h1
    rw [hso] at h1
    rw [hshared h1] at hrel
    simp only [Res.ok.injEq, true_and] at hrel
    subst hrel
    refine ⟨by simp only; rw [List.getElem?_set_self hclt, hso], rfl, ?_⟩
    intro j q hq hqr
    have hqmem : some q ∈ (w.ptrs.set self (some ⟨none, none⟩)).set self none :=
      List.getElem?_mem hq
    have hqc : q.counter ≠ none := fun h => by
      have := (hI'.null_iff q hqmem).2 h
      rw [hqr] at this
      cases this
    obtain ⟨d, hd⟩ := Option.ne_none_iff_exists'.1 hqc
    have hcntq := hI'.count d ((SharedWorld.owners_pos_iff _ d).2 ⟨q, hqmem, hd⟩)
    have hsoq := hI'.sharers_eq_owners q r' d hqmem hqr hd
    simp only [SharedPtr.use_count, hq, hd, hcntq, RefCounter.get, Option.some.injEq]
    rw [← hsoq]
    omega

/-- Witness of C9 amended: `A` over the resource 7 and its copy `B` (count 2); destroying `A`
leaves the
counter at 1 and the resource alive with `B` reporting 1; destroying `B` then deletes the counter
and destroys the resource. -/
theorem C9_destroy_decrements_and_releases_last_witness :
    (∃ w', SharedPtr.dtor 0
        ⟨[some ⟨some 7, some 0⟩, some ⟨some 7, some 0⟩], [some ⟨2⟩], [], []⟩ = .ok () w' ∧
      w'.counters[0]? = some (some ⟨1⟩) ∧ w'.deleted = [] ∧
      SharedPtr.use_count 1 w' = some 1) ∧
    (∃ w', SharedPtr.dtor 1 ⟨[none, some ⟨some 7, some 0⟩], [some ⟨1⟩], [], []⟩ = .ok () w' ∧
      w'.counters[0]? = some none ∧ w'.deleted = [7]) := by
  constructor
  · obtain ⟨_, _, _, c, w', hc, _, hd, hptrs, _, _, _, hsh⟩ :=
      C9_destroy_decrements_and_releases_last [] [.ctor (some 7), .copyCtor 0]
        ⟨[some ⟨some 7, some 0⟩, some ⟨some 7, some 0⟩], [some ⟨2⟩], [], []⟩
        (by simp [SharedOp.FreshRun, SharedOp.step, SharedPtr.ctor, SharedPtr.copyCtor,
              SharedPtr.incrementAt, RefCounter.increment, RefCounter.new, SharedWorld.Fresh,
              INT_MAX])
        (by decide) 0 ⟨some 7, some 0⟩ 7 rfl rfl
    simp only [Option.some.injEq] at hc
    subst hc
    obtain ⟨h1, h2, h3⟩ := hsh (by decide)
    refine ⟨w', hd, ?_, h2, ?_⟩
    · rw [h1]; decide
    · have := h3 1 ⟨some 7, some 0⟩ (by rw [hptrs]; rfl) rfl
      rw [this]; decide
  · obtain ⟨_, _, _, c, w', hc, _, hd, _, _, _, hl, _⟩ :=
      C9_destroy_decrements_and_releases_last [] [.ctor (some 7), .copyCtor 0, .dtor 0]
        ⟨[none, some ⟨some 7, some 0⟩], [some ⟨1⟩], [], []⟩
        (by simp [SharedOp.FreshRun, SharedOp.step, SharedPtr.ctor, SharedPtr.copyCtor,
              SharedPtr.incrementAt, RefCounter.increment, RefCounter.new, SharedWorld.Fresh,
              INT_MAX, SharedPtr.dtor, SharedPtr.release, RefCounter.decrement, RefCounter.get,
              INT_MIN])
        (by decide) 1 ⟨some 7, some 0⟩ 7 rfl rfl
    simp only [Option.some.injEq] at hc
    subst hc
    exact ⟨w', hd, hl (by decide)⟩

/-- C10 fails as stated: after `SharedPtr a(R); SharedPtr b(R);` with the same resource `R = 7`,
the two live objects reference `R` through two different counters, each holding 1. -/
theorem C10_same_resource_twice_counterexample :
    SharedOp.run [.ctor (some 7), .ctor (some 7)] SharedPtr.init =
      some ⟨[some ⟨some 7, some 0⟩, some ⟨some 7, some 1⟩], [some ⟨1⟩, some ⟨1⟩], [], []⟩ ∧
    ¬ SharedWorld.OneCounterPerResource
      ⟨[some ⟨some 7, some 0⟩, some ⟨some 7, some 1⟩], [some ⟨1⟩, some ⟨1⟩], [], []⟩ := by
  refine ⟨by decide, ?_⟩
  intro h
  have := h 0 1 ⟨some 7, some 0⟩ ⟨some 7, some 1⟩ rfl rfl (by simp) rfl
  simp at this

/-- C10, amended: in every state that a program reaches by constructing `SharedPtr`s from fresh
resources (or null), copy-constructing, copy-assigning and destroying them, no resource has two
counters, and the counter of a live `SharedPtr` over a resource exists. `SharedPtr(T*)` with a
non-null resource creates one new counter, holding 1, on every call that returns. -/
theorem C10_one_counter_per_fresh_resource (af : List Bool) (ops : List SharedOp)
    (w : SharedWorld) (hfresh : SharedOp.FreshRun ops ⟨[], [], [], af⟩)
    (hrun : SharedOp.run ops ⟨[], [], [], af⟩ = some w) :
    w.OneCounterPerResource ∧
    (∀ (i : Nat) (p : SharedPtr) (r : Nat), w.ptrs[i]? = some (some p) → p.obj = some r →
      ∃ c rc, p.counter = some c ∧ w.counters[c]? = some (some rc)) ∧
    (∀ (r id : Nat) (w' : SharedWorld), SharedPtr.ctor (some r) w = .ok id w' →
      w'.counters = w.counters ++ [some RefCounter.new] ∧
      w'.ptrs = w.ptrs ++ [some ⟨some r, some w.counters.length⟩]) := by
  have hI0 : SharedWorld.Inv ⟨[], [], [], af⟩ := SharedWorld.Inv.init.congr rfl rfl rfl
  have hI := SharedOp.run_inv ops _ w hI0 hfresh hrun
  refine ⟨?_, ?_, ?_⟩
  · intro i j p q hp hq hne hobj
    have hpm : some p ∈ w.ptrs := List.getElem?_mem hp
    have hqm : some q ∈ w.ptrs := List.getElem?_mem hq
    have hcne : p.counter ≠ none := fun h => hne ((hI.null_iff p hpm).2 h)
    exact (hI.share p q hpm hqm hcne).1 hobj
  · intro i p r hp hr
    have hpm : some p ∈ w.ptrs := List.getElem?_mem hp
    have hcne : p.counter ≠ none := fun h => by
      have := (hI.null_iff p hpm).2 h
      rw [hr] at this
      cases this
    obtain ⟨c, hc⟩ := Option.ne_none_iff_exists'.1 hcne
    exact ⟨c, _, hc, hI.count c ((w.owners_pos_iff c).2 ⟨p, hpm, hc⟩)⟩
  · intro r id w' hctor
    simp only [SharedPtr.ctor] at hctor
    split at hctor
    · cases hctor
    · simp only [Res.ok.injEq] at hctor
      obtain ⟨_, rfl⟩ := hctor
      exact ⟨rfl, rfl⟩

/-- Witness of C10 amended: `A` over the fresh resource 7, its copy `B`, and `C` over the fresh
resource 8: no resource has two counters. -/
theorem C10_one_counter_per_fresh_resource_witness :
    SharedWorld.OneCounterPerResource
      ⟨[some ⟨some 7, some 0⟩, some ⟨some 7, some 0⟩, some ⟨some 8, some 1⟩],
        [some ⟨2⟩, some ⟨1⟩], [], []⟩ :=
  (C10_one_counter_per_fresh_resource [] [.ctor (some 7), .copyCtor 0, .ctor (some 8)]
    ⟨[some ⟨some 7, some 0⟩, some ⟨some 7, some 0⟩, some ⟨some 8, some 1⟩],
      [some ⟨2⟩, some ⟨1⟩], [], []⟩
    (by simp [SharedOp.FreshRun, SharedOp.step, SharedPtr.ctor, SharedPtr.copyCtor,
          SharedPtr.incrementAt, RefCounter.increment, RefCounter.new, SharedWorld.Fresh,
          INT_MAX])
    (by decide)).1

/-! ## Claims on `UniquePtr<T, Deleter>` -/

/-- C14: `reset(p)` calls the deleter exactly once, on the resource that was owned, if there was
one, and not at all if the pointer was empty; afterwards `get() == p`. -/
theorem C14_unique_reset (u : UniquePtr) (p : Option Nat) (calls : List (Nat × Nat)) :
    (UniquePtr.reset u p calls).1.get = p ∧
    (UniquePtr.reset u p calls).2 =
      (match u.get with
        | some r => (u.deleter, r) :: calls
        | none => calls) ∧
    (UniquePtr.reset u p calls).2.length = calls.length + (if u.toBool then 1 else 0) := by
  cases hp : u.ptr with
  | none => simp [UniquePtr.reset, UniquePtr.get, UniquePtr.toBool, hp]
  | some r => simp [UniquePtr.reset, UniquePtr.get, UniquePtr.toBool, hp]

/-- C15: `release()` returns what `get()` returned, has no effect on the log of deleter calls,
and leaves the pointer empty (`get()` null, `operator bool` false); destroying or resetting the
pointer afterwards calls no deleter. -/
theorem C15_unique_release (u : UniquePtr) (p : Option Nat) (calls : List (Nat × Nat)) :
    (UniquePtr.release u).1 = u.get ∧
    (UniquePtr.release u).2.get = none ∧ (UniquePtr.release u).2.toBool = false ∧
    UniquePtr.dtor (UniquePtr.release u).2 calls = calls ∧
    (UniquePtr.reset (UniquePtr.release u).2 p calls).2 = calls := by
  simp [UniquePtr.release, UniquePtr.get, UniquePtr.toBool, UniquePtr.dtor, UniquePtr.reset]

/-- C20 fails as stated: the pointer owns resource 5 and `reset(get())` is called; the deleter is
called on 5 and the pointer still owns 5. -/
theorem C20_reset_with_owned_resource_counterexample :
    UniquePtr.reset ⟨some 5, 0⟩ (UniquePtr.get ⟨some 5, 0⟩) [] = (⟨some 5, 0⟩, [(0, 5)]) ∧
    UniquePtr.OwnsDeleted (UniquePtr.reset ⟨some 5, 0⟩ (UniquePtr.get ⟨some 5, 0⟩) []).1
      (UniquePtr.reset ⟨some 5, 0⟩ (UniquePtr.get ⟨some 5, 0⟩) []).2 := by
  refine ⟨rfl, 5, 0, rfl, ?_⟩
  simp [UniquePtr.reset, UniquePtr.get]

/-- C20, amended: when `p` is null, or is a resource that the pointer does not own and on which
no deleter was called, the pointer does not own, after `reset(p)`, a resource on which a deleter
was called. -/
theorem C20_reset_with_other_resource (u : UniquePtr) (p : Option Nat)
    (calls : List (Nat × Nat))
    (hp : ∀ r, p = some r → u.get ≠ some r ∧ ∀ d, (d, r) ∉ calls) :
    ¬ UniquePtr.OwnsDeleted (UniquePtr.reset u p calls).1 (UniquePtr.reset u p calls).2 := by
  rintro ⟨r, d, hr, hmem⟩
  have hptr : (UniquePtr.reset u p calls).1.ptr = p := by
    unfold UniquePtr.reset
    split <;> rfl
  rw [hptr] at hr
  obtain ⟨hne, hnot⟩ := hp r hr
  simp only [UniquePtr.get] at hne
  unfold UniquePtr.reset at hmem
  split at hmem
  · rename_i r0 hr0
    simp only [List.mem_cons, Prod.mk.injEq] at hmem
    rcases hmem with ⟨_, hs⟩ | hmem
    · exact hne (by rw [hr0, hs])
    · exact hnot d hmem
  · exact hnot d hmem

/-- Witness of C20 amended: the pointer owns resource 5 and `reset(6)` is called. -/
theorem C20_reset_with_other_resource_witness :
    ¬ UniquePtr.OwnsDeleted (UniquePtr.reset ⟨some 5, 0⟩ (some 6) []).1
      (UniquePtr.reset ⟨some 5, 0⟩ (some 6) []).2 :=
  C20_reset_with_other_resource ⟨some 5, 0⟩ (some 6) [] (by
    intro r hr
    simp only [Option.some.injEq] at hr
    subst hr
    exact ⟨by simp [UniquePtr.get], by simp⟩)

/-! ## Claims on `pop_back`, `clear`, the constructors and `reallocate` -/

theorem drop_last_slot {α : Type} (ys : List α) (y : α) (m : Nat) :
    (List.map Slot.live (ys ++ [y]) ++ List.replicate m (Slot.raw : Slot α)).set ys.length
        Slot.raw =
      List.map Slot.live ys ++ List.replicate (m + 1) Slot.raw := by
  rw [List.map_append, List.append_assoc, List.set_append]
  simp only [List.length_map, lt_self_iff_false, if_false, Nat.sub_self, List.map_cons,
    List.map_nil, List.singleton_append, List.set_cons_zero]
  rw [List.replicate_succ]

/-- On a Vector holding `ys ++ [y]` in block `a`, `pop_back()` returns: the size is one less,
data pointer and capacity are unchanged, the Vector holds `ys`, and the one call of
`std::destroy_at` is on the last element. -/
theorem Vector.pop_back_ok {α : Type} {v : Vector} {h : Heap α} (ys : List α) (y : α)
    (hH : v.Holds h (ys ++ [y])) :
    ∃ a, v._data = some a ∧
      Vector.pop_back v h = .ok ()
        (⟨v._data, v._size - 1, v._capacity⟩,
         { h with blocks := h.blocks.set a (some (List.map Slot.live ys ++
                    List.replicate (v._capacity - (v._size - 1)) Slot.raw)),
                  destroyed := (a, v._size - 1) :: h.destroyed }) ∧
      Vector.Holds ⟨v._data, v._size - 1, v._capacity⟩
        { h with blocks := h.blocks.set a (some (List.map Slot.live ys ++
                    List.replicate (v._capacity - (v._size - 1)) Slot.raw)),
                 destroyed := (a, v._size - 1) :: h.destroyed } ys := by
  have hsz := hH.1
  have hle := hH.2.1
  have hcap := hH.2.2.1
  simp only [List.length_append, List.length_singleton] at hsz
  obtain ⟨a, hd, halt, hb⟩ := hH.data_of_pos (by omega)
  have hsz1 : v._size - 1 = ys.length := by omega
  have hget : (List.map Slot.live (ys ++ [y]) ++
      List.replicate (v._capacity - v._size) (Slot.raw : Slot α))[v._size - 1]?
        = some (Slot.live y) := by
    rw [hsz1, List.getElem?_append_left (by simp)]
    simp
  have hset : (List.map Slot.live (ys ++ [y]) ++
      List.replicate (v._capacity - v._size) (Slot.raw : Slot α)).set (v._size - 1) Slot.raw
        = List.map Slot.live ys ++ List.replicate (v._capacity - (v._size - 1)) Slot.raw := by
    rw [hsz1, drop_last_slot]
    congr 2
    omega
  refine ⟨a, hd, ?_, ?_⟩
  · have hnz : ¬ v._size = 0 := by omega
    simp only [Vector.pop_back, hnz, if_false, hd]
    rw [destroy_at_ok a (v._size - 1) y h _ hb hget, hset]
  · refine ⟨hsz1, by simp only; omega, hcap, ?_⟩
    simp only [hd]
    rw [List.getElem?_set_self halt]

/-- C16: on a Vector holding the non-empty `xs`, `pop_back()` returns, the size is one less, the
capacity and the data pointer are unchanged, the only `std::destroy_at` call is on the last
element, no other block changes, and `at(i)` still gives `xs[i]` for every `i` below the new
size. A returning `push_back(x)` followed by `pop_back()` gives back the size and the
elements. -/
theorem C16_pop_back_nonempty {α : Type} (v : Vector) (h : Heap α) (xs : List α) :
    (v.Holds h xs → xs ≠ [] →
      ∃ v' h' a, Vector.pop_back v h = .ok () (v', h') ∧
        v'.size = v.size - 1 ∧ v'.capacity = v.capacity ∧ v'._data = v._data ∧
        v._data = some a ∧ h'.destroyed = (a, v.size - 1) :: h.destroyed ∧
        (∀ b, b ≠ a → h'.blocks[b]? = h.blocks[b]?) ∧
        v'.Holds h' xs.dropLast ∧
        ∀ (i : Nat) (hi : i < xs.length), i < v'.size → Vector.«at» v' i h' = .ok xs[i] ()) ∧
    (v.Holds h xs → ∀ (x : α) (v1 : Vector) (h1 : Heap α),
      Vector.push_back v x h = .ok () (v1, h1) →
      ∃ v2 h2, Vector.pop_back v1 h1 = .ok () (v2, h2) ∧ v2.size = v.size ∧ v2.Holds h2 xs) := by
  constructor
  · intro hH hne
    obtain ⟨ys, y, rfl⟩ : ∃ ys y, xs = ys ++ [y] :=
      ⟨xs.dropLast, xs.getLast hne, (List.dropLast_append_getLast hne).symm⟩
    obtain ⟨a, hd, hrun, hH'⟩ := Vector.pop_back_ok ys y hH
    refine ⟨_, _, a, hrun, rfl, rfl, rfl, hd, rfl, ?_, ?_, ?_⟩
    · intro b hb
      simp only
      rw [List.getElem?_set_ne (fun e => hb e.symm)]
    · simpa using hH'
    · intro i hi hlt
      have hsz := hH'.1
      simp only [Vector.size] at hlt
      have hi' : i < ys.length := by simp only at hsz; omega
      have := hH'.at_lt i hi'
      rw [this]
      simp [List.getElem_append_left hi']
  · intro hH x v1 h1 hpush
    obtain ⟨hH1, _, _, _⟩ := Vector.push_back_ok_elim hH x hpush
    obtain ⟨a, hd, hrun, hH'⟩ := Vector.pop_back_ok xs x hH1
    refine ⟨_, _, hrun, ?_, hH'⟩
    have h1sz := hH1.1
    have hsz := hH.1
    simp only [List.length_append, List.length_singleton] at h1sz
    simp only [Vector.size]
    omega

/-- Witness of C16: `pop_back()` on the `Vector<int>` holding `[10, 20]`. -/
theorem C16_pop_back_nonempty_witness :
    ∃ v' h' a, Vector.pop_back ⟨some 0, 2, 2⟩
        (⟨[some [.live (10 : Int), .live 20]], [], [], []⟩ : Heap Int) = .ok () (v', h') ∧
      v'.size = 1 ∧ v'.capacity = 2 ∧ v'._data = some 0 ∧ some 0 = some a ∧
      h'.destroyed = [(a, 1)] ∧ v'.Holds h' [10] := by
  obtain ⟨v', h', a, h1, h2, h3, h4, h5, h6, _, h8, _⟩ :=
    (C16_pop_back_nonempty ⟨some 0, 2, 2⟩
      (⟨[some [.live (10 : Int), .live 20]], [], [], []⟩ : Heap Int) [10, 20]).1
      (by simp [Vector.Holds, SIZE_MOD]) (by simp)
  exact ⟨v', h', a, h1, h2, h3, h4, h5, h6, h8⟩

/-- C17: on a Vector holding `xs`, `clear()` returns with `size() == 0` and `empty()`, the same
capacity and data pointer; the block stays allocated with its `capacity` slots, now all without
an object; `std::destroy_at` was called once on each index below the old size, from 0 up, and on
nothing else; no other block changes. -/
theorem C17_clear {α : Type} (v : Vector) (h : Heap α) (xs : List α) (hH : v.Holds h xs) :
    ∃ v' h', Vector.clear v h = .ok () (v', h') ∧
      v'.size = 0 ∧ v'.empty = true ∧ v'.capacity = v.capacity ∧ v'._data = v._data ∧
      v'.Holds h' ([] : List α) ∧ h'.blocks.length = h.blocks.length ∧
      (∀ b, v._data ≠ some b → h'.blocks[b]? = h.blocks[b]?) ∧
      (v._data = none → h'.destroyed = h.destroyed) ∧
      (∀ a, v._data = some a →
        h'.blocks[a]? = some (some (List.replicate v.capacity Slot.raw)) ∧
        h'.destroyed = ((List.range v.size).reverse.map fun i => (a, i)) ++ h.destroyed) := by
  obtain ⟨h', hrun, hH', hframe, hlen, _, _⟩ := Vector.clear_ok hH
  refine ⟨_, h', hrun, rfl, rfl, rfl, rfl, hH', hlen, hframe, ?_, ?_⟩
  · intro hd
    have hz : v._size = 0 := by
      have h4 := hH.2.2.2
      rw [hd] at h4
      simp only at h4
      have := hH.2.1
      omega
    simp only [Vector.clear, hz, forLoop, Res.ok.injEq, Prod.mk.injEq, true_and] at hrun
    rw [← hrun]
  · intro a hd
    obtain ⟨h2, hrun2, k1, _, _, k4⟩ := Vector.destroyLoop_ok hH a hd
    simp only [Vector.clear, hrun2, Res.ok.injEq, Prod.mk.injEq, true_and] at hrun
    rw [← hrun]
    have halt : a < h.blocks.length := by
      have h4 := hH.2.2.2
      rw [hd] at h4
      simp only at h4
      by_contra hge
      rw [List.getElem?_eq_none (by omega)] at h4
      cases h4
    exact ⟨by rw [k1, List.getElem?_set_self halt]; rfl, k4⟩

/-- Witness of C17: `clear()` on the `Vector<int>` holding `[10, 20]` with capacity 4. -/
theorem C17_clear_witness :
    ∃ v' h', Vector.clear ⟨some 0, 2, 4⟩
        (⟨[some [.live (10 : Int), .live 20, .raw, .raw]], [], [], []⟩ : Heap Int)
          = .ok () (v', h') ∧
      v'.size = 0 ∧ v'.capacity = 4 ∧ h'.destroyed = [(0, 1), (0, 0)] ∧
      h'.blocks[0]? = some (some [.raw, .raw, .raw, .raw]) := by
  obtain ⟨v', h', h1, h2, _, h4, _, _, _, _, _, h10⟩ :=
    C17_clear ⟨some 0, 2, 4⟩
      (⟨[some [.live (10 : Int), .live 20, .raw, .raw]], [], [], []⟩ : Heap Int) [10, 20]
      (by simp [Vector.Holds, SIZE_MOD])
  obtain ⟨h11, h12⟩ := h10 0 rfl
  exact ⟨v', h', h1, h2, h4, by rw [h12]; decide, by rw [h11]; decide⟩

/-- C18 on the code: `Vector(n)` with `n > 0` initialises `_data` to null and `_size` and
`_capacity` to `n`, allocates nothing, and its loop constructs at `nullptr + 0`: the constructor
has undefined behaviour, and the members it has written do not satisfy the invariant for any
elements (there is no block of `n` slots). `Vector(0)` gives the empty Vector. -/
theorem C18_presized_constructor_allocates_nothing {α : Type} [Inhabited α] (n : Nat)
    (h : Heap α) :
    Vector.newSized (n + 1) h = (.ub : Res (Heap α) Vector) ∧
    (∀ xs : List α, ¬ Vector.Holds ⟨none, n + 1, n + 1⟩ h xs) ∧
    (Vector.newSized 0 h : Res (Heap α) Vector) = .ok ⟨none, 0, 0⟩ h := by
  refine ⟨?_, ?_, ?_⟩
  · simp [Vector.newSized, forLoop, construct_at]
  · intro xs hH
    have := hH.2.2.2
    simp at this
  · simp [Vector.newSized, forLoop]

/-- C19 on the code: `reallocate(4)` on the `Vector<int>` holding `[1, 2]` in block 0 moves the
two elements into the new block 1 at the same indices, deallocates block 0 and leaves size 2 and
capacity 4, but the log of `std::destroy_at` calls stays empty: the elements of the old block are
not destroyed before the block is released. -/
theorem C19_reallocate_destroys_nothing :
    Vector.reallocate ⟨some 0, 2, 2⟩ 4
        (⟨[some [.live (1 : Int), .live 2]], [], [], []⟩ : Heap Int) =
      .ok () (⟨some 1, 2, 4⟩,
        ⟨[none, some [.live 1, .live 2, .raw, .raw]], [], [], []⟩) := by
  decide

/-! ## Copy assignment of `SharedPtr<T>` -/

end CustomCPP
